import Mathlib

/-!
A shallow embedding of `include/eventbus/EventBus.h` (class `EventBus` and its
private `EventRegistration`), together with proofs about the behaviour of
`AddHandler`, `FireEvent`, `removeHandler`, `getSender`, `Subscribe`, `Add` and
`Publish`.

Modelling decisions, in one place:

* `std::type_index` keys (`typeid(T)` / `typeid(e)`) are modelled as natural
  numbers (`TypeKey`): equal concrete types give equal keys, distinct concrete
  types give distinct keys.
* Heap identities (the `void*` handler pointer, `EventRegistration*` pointers,
  and the nodes of the `std::list<EventRegistration*>`) are modelled as natural
  numbers allocated from per-kind counters.  Registrations and list nodes are
  never deallocated except that `std::list::remove` frees the removed nodes;
  a freed node id is recorded in `freedNodes`.
* The `std::list` of a collection is modelled as the sequence of its live
  nodes, each node carrying its id and the stored `EventRegistration*` value.
  The range-for loop of `FireEvent` is modelled node by node: reading `*it`
  and computing `++it` require the node `it` points to to still be live; if
  the node has been erased (e.g. by `std::list::remove` called from a handler)
  the access is undefined behaviour in C++ and the model returns
  `DispatchErr.useAfterFree`.
* `std::unordered_map` is modelled as an association list looked up by key
  (`lookupA`); `operator[]` inserts a default (null) entry when the key is
  absent, exactly as the C++ does in both `AddHandler` and `FireEvent`.
* A `void*` value is modelled by `PtrVal`: the null pointer, the address of a
  caller-owned object, or the address of a stack slot.  The two-argument
  `AddHandler` passes `&sender` — the address of its by-value parameter — to
  the `EventRegistration` constructor, which the model renders as a fresh
  `PtrVal.stack` address.
* Handler code run by `dispatch` is arbitrary user code; for these claims its
  only relevant effect is calling `removeHandler` on registration handles, so
  a handler's behaviour is modelled as the list of registrations it revokes
  when invoked (`Behavior`).  `FireEvent` returns the sequence of
  (registration, handler) pairs it dispatched to, in order.
-/

/-- Stable runtime type identity of a concrete event type (`std::type_index`). -/
abbrev TypeKey := Nat

/-- Identity of a handler object (the `void*` obtained from `&handler`). -/
abbrev HandlerId := Nat

/-- Heap identity of an `EventRegistration` object. -/
abbrev RegId := Nat

/-- Heap identity of a `std::list` node. -/
abbrev NodeId := Nat

/-- Identity of a subscription handle returned by the collection map. -/
abbrev SubId := Nat

/-- Identity of a strongly-typed callback passed to `Subscribe`. -/
abbrev CbId := Nat

/-- A `void*` value: null, the address of a caller-owned object, or the
address of a stack slot. -/
inductive PtrVal where
  | null : PtrVal
  | ext (n : Nat) : PtrVal
  | stack (n : Nat) : PtrVal
deriving DecidableEq, Repr

/-- Association-list lookup: the value of the first entry with the given key
(`std::unordered_map` lookup; key order is irrelevant, only lookups are
observable). -/
def lookupA {β : Type} : List (Nat × β) → Nat → Option β
  | [], _ => none
  | (k, v) :: rest, k' => if k = k' then some v else lookupA rest k'

/-- Association-list update: replace the value of the first entry with the
given key, or append a new entry if the key is absent. -/
def updateA {β : Type} : List (Nat × β) → Nat → β → List (Nat × β)
  | [], k, v => [(k, v)]
  | (k0, v0) :: rest, k, v =>
      if k0 = k then (k, v) :: rest else (k0, v0) :: updateA rest k v

/-- The state of one `EventRegistration` object (`EventBus::EventRegistration`):
the erased handler pointer, the back-pointer to the owning collection
(collections are created once per type key and never destroyed, so a
collection is identified by its key), the stored sender pointer, and the
`registered` flag. -/
structure RegRecord where
  handler : HandlerId
  owner : TypeKey
  sender : PtrVal
  registered : Bool
deriving DecidableEq, Repr

/-- An event routed through the descriptor path: its runtime type key
(`typeid(e)`) and its payload (enough observable content for predicates,
e.g. `Order.amount`). -/
structure Event where
  key : TypeKey
  payload : Nat
deriving DecidableEq, Repr

/-- `dynamic_cast<T&>(e)` from the common base reference: succeeds exactly
when `e`'s runtime concrete type is `T` (matching is by exact type key), and
yields the typed payload. -/
def dynCast (t : TypeKey) (e : Event) : Option Nat :=
  if e.key = t then some e.payload else none

/-- A `SubscriptionDescriptor`: a type key plus the two erased callbacks built
by `Subscribe`.  The dispatch callback's observable effect is the
(user-callback identity, downcast payload) invocation it performs, `none`
meaning the downcast failed; the predicate callback likewise downcasts and
returns the predicate's verdict. -/
structure SubscriptionDescriptor where
  typeKey : TypeKey
  dispatchCb : Event → Option (CbId × Nat)
  predCb : Event → Option Bool

/-- One entry stored by the collection-map collaborator: the subscription id
of its handle, its descriptor, and whether it is still active (not
cancelled). -/
structure SubEntry where
  id : SubId
  descriptor : SubscriptionDescriptor
  active : Bool

/-- Modelled from the spec: the state of the `HandlerCollectionMap`
collaborator (`HandlerCollectionMap.h` is not under `src/`): the stored
descriptor entries in insertion order, plus a counter for fresh subscription
handles. -/
structure CollMapState where
  entries : List SubEntry
  nextSub : Nat

/-- Modelled from the spec: `HandlerCollectionMap::Add` accepts a descriptor
and returns a cancellable subscription handle; the entry is stored in
insertion order. -/
def CollMapState.Add (cm : CollMapState) (d : SubscriptionDescriptor) :
    CollMapState × SubId :=
  ({ entries := cm.entries ++ [⟨cm.nextSub, d, true⟩], nextSub := cm.nextSub + 1 },
   cm.nextSub)

/-- Modelled from the spec: cancelling a subscription handle deactivates the
entry it was returned for. -/
def CollMapState.cancel (cm : CollMapState) (s : SubId) : CollMapState :=
  { cm with
    entries := cm.entries.map (fun ent =>
      if ent.id = s then { ent with active := false } else ent) }

/-- The contribution of one stored entry to a dispatch of event `e`:
modelled from the spec, the collaborator matches by type key first, then
evaluates the entry's predicate callback, and invokes its dispatch callback
when the predicate holds; cancelled entries are skipped. -/
def entryOut (e : Event) (ent : SubEntry) : Option (SubId × (CbId × Nat)) :=
  if ent.active && (ent.descriptor.typeKey == e.key) then
    match ent.descriptor.predCb e with
    | some true => (ent.descriptor.dispatchCb e).map (fun out => (ent.id, out))
    | _ => none
  else none

/-- Modelled from the spec: `HandlerCollectionMap::Dispatch` invokes the
dispatch callback of every currently-registered, not-yet-cancelled entry for
the event's type key whose predicate callback returns true, in insertion
order.  The result lists the performed callback invocations. -/
def CollMapState.Dispatch (cm : CollMapState) (e : Event) :
    List (SubId × (CbId × Nat)) :=
  cm.entries.filterMap (entryOut e)

/-- The state of one `EventBus` object: the `TypeMap handlers` (values are
either the null pointer or a pointer to the collection, identified by its
key), the contents of every created collection, the heap of
`EventRegistration` objects, the set of freed list nodes, the allocation
counters, and the `_collectionMap` collaborator state. -/
structure BusState where
  handlers : List (TypeKey × Option TypeKey)
  colls : List (TypeKey × List (NodeId × RegId))
  regs : List (RegId × RegRecord)
  freedNodes : List NodeId
  nextNode : Nat
  nextReg : Nat
  nextStack : Nat
  collMap : CollMapState

/-- A freshly constructed `EventBus`. -/
def initState : BusState :=
  ⟨[], [], [], [], 0, 0, 0, ⟨[], 0⟩⟩

/-- `registrations->push_back(p)`: append a node to the pointed-to collection
(the pointer is always valid when `push_back` runs). -/
def collAppend (colls : List (TypeKey × List (NodeId × RegId))) (k : TypeKey)
    (p : NodeId × RegId) : List (TypeKey × List (NodeId × RegId)) :=
  match lookupA colls k with
  | none => colls
  | some nodes => updateA colls k (nodes ++ [p])

/-- Shared body of the two `AddHandler` overloads, which differ only in the
third constructor argument: fetch `handlers[typeid(T)]` (inserting a null
entry when absent), create the collection if the pointer is null, allocate the
`EventRegistration` with the given sender field, and `push_back` it. -/
def addHandlerCore (st : BusState) (t : TypeKey) (h : HandlerId)
    (senderField : PtrVal) : BusState × RegId :=
  -- Registrations* registrations = this->handlers[typeid(T)];
  let fetched :=
    match lookupA st.handlers t with
    | none => ({ st with handlers := st.handlers ++ [(t, none)] },
               (none : Option TypeKey))
    | some v => (st, v)
  let st1 := fetched.1
  -- if (registrations == nullptr) { registrations = new Registrations();
  --                                 this->handlers[typeid(T)] = registrations; }
  let created :=
    match fetched.2 with
    | none => ({ st1 with
                  colls := st1.colls ++ [(t, [])],
                  handlers := updateA st1.handlers t (some t) }, t)
    | some c => (st1, c)
  let st2 := created.1
  let coll := created.2
  -- EventRegistration* registration = new EventRegistration(handler, registrations, sender);
  let rid := st2.nextReg
  let st3 := { st2 with
                regs := st2.regs ++ [(rid, (⟨h, coll, senderField, true⟩ : RegRecord))],
                nextReg := rid + 1 }
  -- registrations->push_back(registration);
  let nid := st3.nextNode
  ({ st3 with colls := collAppend st3.colls coll (nid, rid), nextNode := nid + 1 },
   rid)

/-- `AddHandler<T>(handler, sender)`: the overload with a source specifier.
The C++ passes `&sender` — the address of the by-value `void* sender`
parameter, a fresh stack slot — to the `EventRegistration` constructor, not
the supplied sender value itself. -/
def AddHandler2 (st : BusState) (t : TypeKey) (h : HandlerId)
    ( sender : PtrVal) : BusState × RegId :=
  addHandlerCore { st with nextStack := st.nextStack + 1 } t h
    (PtrVal.stack st.nextStack)

/-- `AddHandler<T>(handler)`: the overload with no source specified; the
constructor receives `nullptr` for the sender. -/
def AddHandler1 (st : BusState) (t : TypeKey) (h : HandlerId) :
    BusState × RegId :=
  addHandlerCore st t h PtrVal.null

/-- `EventRegistration::getSender()` of the registration at `r`. -/
def getSender (st : BusState) (r : RegId) : Option PtrVal :=
  (lookupA st.regs r).map (fun record => record.sender)

/-- `EventRegistration::removeHandler()` on the registration at `r`: if still
registered, `registrations->remove(this)` unlinks and frees every node of the
owning collection that stores this registration, then the `registered` flag is
cleared; otherwise nothing happens. -/
def removeHandler (st : BusState) (r : RegId) : BusState :=
  match lookupA st.regs r with
  | none => st
  | some record =>
    if record.registered then
      let st1 : BusState :=
        match lookupA st.colls record.owner with
        | none => st
        | some nodes =>
            { st with
              colls := updateA st.colls record.owner
                (nodes.filter (fun (p : NodeId × RegId) => p.2 != r)),
              freedNodes :=
                st.freedNodes ++
                  (nodes.filter (fun (p : NodeId × RegId) => p.2 == r)).map
                    (fun (p : NodeId × RegId) => p.1) }
      { st1 with regs := updateA st1.regs r { record with registered := false } }
    else st

/-- What a handler's user code does when invoked: the registrations it calls
`removeHandler` on, in order (the only effect on the bus that the claims
concern). -/
abbrev Behavior := HandlerId → List RegId

/-- Handlers that do not touch the bus when invoked. -/
def noopBeh : Behavior := fun _ => []

/-- Run the user code of handler `h` (its `removeHandler` calls, in order). -/
def runHandler (beh : Behavior) (h : HandlerId) (st : BusState) : BusState :=
  (beh h).foldl removeHandler st

/-- Read `*it` in collection `c`: the registration stored at node `n`, or
`none` when no live node `n` exists (the node was erased). -/
def lookupNode (st : BusState) (c : TypeKey) (n : NodeId) : Option RegId :=
  (((lookupA st.colls c).getD []).find? (fun p => p.1 == n)).map (fun p => p.2)

/-- The successor of node `n` in a node sequence: `some next` when `n` is
live (`next = none` meaning `n` is the last node), `none` when `n` is not in
the sequence. -/
def succOf : List (NodeId × RegId) → NodeId → Option (Option NodeId)
  | [], _ => none
  | p :: rest, n =>
      if p.1 = n then some ((rest.head?).map (fun q => q.1)) else succOf rest n

/-- Compute `++it` in collection `c`: requires the node `it` points to to
still be live; yields the id of the next live node (or `none` at the end). -/
def succAfter (st : BusState) (c : TypeKey) (n : NodeId) :
    Option (Option NodeId) :=
  succOf ((lookupA st.colls c).getD []) n

/-- How a dispatch can go wrong in the model. -/
inductive DispatchErr where
  /-- The range-for iterator touched a `std::list` node that had been erased
  (undefined behaviour in the C++). -/
  | useAfterFree : DispatchErr
  /-- A collection node pointed at an `EventRegistration` absent from the
  registration heap (cannot happen: registrations are never freed). -/
  | danglingReg : DispatchErr
  /-- Iteration fuel ran out (never happens for adequate fuel). -/
  | outOfFuel : DispatchErr
deriving DecidableEq, Repr

/-- The range-for loop of `FireEvent` over collection `c`, starting at the
node the iterator currently points to (`none` = end): read `*it`, dispatch to
the handler (running its user code), then `++it`; reading or advancing from an
erased node is undefined behaviour, reported as `useAfterFree`.  Returns the
final state and the (registration, handler) pairs dispatched to, in order. -/
def fireLoop (beh : Behavior) (c : TypeKey) :
    Nat → BusState → Option NodeId →
    Except DispatchErr (BusState × List (RegId × HandlerId))
  | 0, _, _ => .error .outOfFuel
  | _ + 1, st, none => .ok (st, [])
  | fuel + 1, st, some n =>
    match lookupNode st c n with
    | none => .error .useAfterFree
    | some r =>
      match lookupA st.regs r with
      | none => .error .danglingReg
      | some record =>
        -- static_cast<EventHandler<RoutedEvent>*>(reg->getHandler())->dispatch(e);
        -- dispatch downcasts e to the handler's declared concrete type
        -- (EventHandler.h, outside src/) and runs the user code.
        let st2 := runHandler beh record.handler st
        match succAfter st2 c n with
        | none => .error .useAfterFree
        | some next =>
          match fireLoop beh c fuel st2 next with
          | .error err => .error err
          | .ok (st3, l) => .ok (st3, (r, record.handler) :: l)

/-- `EventBus::FireEvent(e)` for an event of runtime type `t`:
`handlers[typeid(e)]` (note: `operator[]` inserts a null entry when the key
is absent), return silently when the pointer is null, otherwise iterate the
collection dispatching to each registration's handler. -/
def FireEvent (beh : Behavior) (st : BusState) (t : TypeKey) (fuel : Nat) :
    Except DispatchErr (BusState × List (RegId × HandlerId)) :=
  match lookupA st.handlers t with
  | none => .ok ({ st with handlers := st.handlers ++ [(t, none)] }, [])
  | some none => .ok (st, [])
  | some (some c) =>
      fireLoop beh c fuel st
        (((lookupA st.colls c).getD []).head?.map (fun p => p.1))

/-- `EventBus::Add(descriptor)`: forwards verbatim to
`_collectionMap.Add(descriptor)` and returns its handle unchanged. -/
def busAdd (st : BusState) (d : SubscriptionDescriptor) : BusState × SubId :=
  let res := st.collMap.Add d
  ({ st with collMap := res.1 }, res.2)

/-- The descriptor `Subscribe<TEvent>(handler, predicate)` builds: the type
key of `TEvent`, a dispatch callback that downcasts the common-base event
reference to `TEvent&` and invokes the user callback, and a predicate callback
that performs the same downcast and invokes the user predicate. -/
def mkDescriptor (t : TypeKey) (cb : CbId) (pred : Nat → Bool) :
    SubscriptionDescriptor :=
  { typeKey := t
  , dispatchCb := fun e => (dynCast t e).map (fun v => (cb, v))
  , predCb := fun e => (dynCast t e).map pred }

/-- `EventBus::Subscribe<TEvent>(handler, predicate)`: build the descriptor
and register it via `Add`. -/
def Subscribe2 (st : BusState) (t : TypeKey) (cb : CbId) (pred : Nat → Bool) :
    BusState × SubId :=
  busAdd st (mkDescriptor t cb pred)

/-- `EventBus::Subscribe<TEvent>(handler)`: delegates to the two-argument
overload with the always-true lambda `[](TEvent&) { return true; }`. -/
def Subscribe1 (st : BusState) (t : TypeKey) (cb : CbId) : BusState × SubId :=
  Subscribe2 st t cb (fun _ => true)

/-- `EventBus::Publish(event)`: forwards to `_collectionMap.Dispatch(event)`;
the result lists the callback invocations the collaborator performs. -/
def Publish (st : BusState) (e : Event) : List (SubId × (CbId × Nat)) :=
  st.collMap.Dispatch e

/-! ### Association-list lemmas -/

theorem lookupA_cons {β : Type} (k0 : Nat) (v0 : β) (rest : List (Nat × β))
    (k : Nat) :
    lookupA ((k0, v0) :: rest) k = if k0 = k then some v0 else lookupA rest k :=
  rfl

theorem lookupA_append {β : Type} (l l2 : List (Nat × β)) (k : Nat) :
    lookupA (l ++ l2) k =
      match lookupA l k with
      | some v => some v
      | none => lookupA l2 k := by
  induction l with
  | nil => rfl
  | cons p rest ih =>
      obtain ⟨k0, v0⟩ := p
      by_cases hk : k0 = k
      · simp [lookupA_cons, hk]
      · simp [lookupA_cons, hk, ih]

theorem lookupA_updateA_self {β : Type} (l : List (Nat × β)) (k : Nat) (v : β) :
    lookupA (updateA l k v) k = some v := by
  induction l with
  | nil => simp [updateA, lookupA]
  | cons p rest ih =>
      obtain ⟨k0, v0⟩ := p
      by_cases hk : k0 = k
      · simp [updateA, hk, lookupA_cons]
      · simp [updateA, hk, lookupA_cons, ih]

theorem lookupA_updateA_ne {β : Type} (l : List (Nat × β)) (k k' : Nat) (v : β)
    (h : k' ≠ k) : lookupA (updateA l k v) k' = lookupA l k' := by
  induction l with
  | nil =>
      simp only [updateA, lookupA_cons, if_neg (Ne.symm h)]
  | cons p rest ih =>
      obtain ⟨k0, v0⟩ := p
      by_cases hk : k0 = k
      · subst hk
        simp only [updateA, eq_self_iff_true, if_true, lookupA_cons,
          if_neg (Ne.symm h)]
      · simp [updateA, hk, lookupA_cons, ih]

theorem lookupA_mem {β : Type} {l : List (Nat × β)} {k : Nat} {v : β}
    (h : lookupA l k = some v) : (k, v) ∈ l := by
  induction l with
  | nil => simp [lookupA] at h
  | cons p rest ih =>
      obtain ⟨k0, v0⟩ := p
      by_cases hk : k0 = k
      · subst hk
        simp [lookupA_cons] at h
        simp [h]
      · simp [lookupA_cons, hk] at h
        exact List.mem_cons_of_mem _ (ih h)

theorem lookupA_eq_none {β : Type} {l : List (Nat × β)} {k : Nat}
    (h : ∀ p ∈ l, p.1 ≠ k) : lookupA l k = none := by
  induction l with
  | nil => rfl
  | cons p rest ih =>
      obtain ⟨k0, v0⟩ := p
      have hk : k0 ≠ k := h (k0, v0) (List.mem_cons_self _ _)
      simp only [lookupA_cons, if_neg hk]
      exact ih (fun q hq => h q (List.mem_cons_of_mem _ hq))

theorem keys_ne_of_lookupA_eq_none {β : Type} {l : List (Nat × β)} {k : Nat}
    (h : lookupA l k = none) : ∀ p ∈ l, p.1 ≠ k := by
  induction l with
  | nil => intro p hp; simp at hp
  | cons q rest ih =>
      obtain ⟨k0, v0⟩ := q
      by_cases hk : k0 = k
      · simp [lookupA_cons, hk] at h
      · simp only [lookupA_cons, if_neg hk] at h
        intro p hp
        rcases List.mem_cons.mp hp with hp | hp
        · subst hp; exact hk
        · exact ih h p hp

theorem lookupA_append_right_of_none {β : Type} {l : List (Nat × β)} {k : Nat}
    (v : β) (h : lookupA l k = none) : lookupA (l ++ [(k, v)]) k = some v := by
  rw [lookupA_append, h]
  simp [lookupA_cons]

theorem mem_updateA {β : Type} {l : List (Nat × β)} {k : Nat} {v : β} {p}
    (h : p ∈ updateA l k v) : p = (k, v) ∨ p ∈ l := by
  induction l with
  | nil => simp [updateA] at h; simp [h]
  | cons q rest ih =>
      obtain ⟨k0, v0⟩ := q
      by_cases hk : k0 = k
      · simp only [updateA, if_pos hk] at h
        rcases List.mem_cons.mp h with h | h
        · exact Or.inl h
        · exact Or.inr (List.mem_cons_of_mem _ h)
      · simp only [updateA, if_neg hk] at h
        rcases List.mem_cons.mp h with h | h
        · exact Or.inr (by simp [h])
        · rcases ih h with h | h
          · exact Or.inl h
          · exact Or.inr (List.mem_cons_of_mem _ h)

theorem lookupA_map_kv {β γ : Type} (g : Nat → β → γ) (l : List (Nat × β))
    (k : Nat) :
    lookupA (l.map (fun kv => (kv.1, g kv.1 kv.2))) k =
      (lookupA l k).map (g k) := by
  induction l with
  | nil => rfl
  | cons p rest ih =>
      obtain ⟨k0, v0⟩ := p
      by_cases hk : k0 = k
      · subst hk; simp [lookupA_cons]
      · simp [lookupA_cons, hk, ih]

theorem updateA_map_kv {β γ : Type} (g : Nat → β → γ) (l : List (Nat × β))
    (k : Nat) (v : β) :
    updateA (l.map (fun kv => (kv.1, g kv.1 kv.2))) k (g k v) =
      (updateA l k v).map (fun kv => (kv.1, g kv.1 kv.2)) := by
  induction l with
  | nil => rfl
  | cons p rest ih =>
      obtain ⟨k0, v0⟩ := p
      by_cases hk : k0 = k
      · subst hk; simp [updateA]
      · simp [updateA, hk, ih]

/-! ### State invariants (decidable, so witnesses can check them) -/

/-- Every node of every collection stores a live registration whose
back-pointer (`owner`) is that collection — the invariant established by
`AddHandler` (a handler is filed under the exact type key it was registered
for). -/
def collOwnerInvB (st : BusState) : Bool :=
  st.colls.all (fun kn => kn.2.all (fun p =>
    match lookupA st.regs p.2 with
    | some record => record.owner == kn.1
    | none => false))

/-- Every non-null `TypeMap` value points to the collection created for its
own key (the only write of a non-null value is
`this->handlers[typeid(T)] = registrations` right after creation). -/
def handlersPtrInvB (st : BusState) : Bool :=
  st.handlers.all (fun kv =>
    match kv.2 with
    | some c => c == kv.1
    | none => true)

/-- Every created collection is reachable from the `TypeMap`: its key maps to
a pointer to it. -/
def collsDomB (st : BusState) : Bool :=
  st.colls.all (fun kn => lookupA st.handlers kn.1 == some (some kn.1))

/-- Every non-null `TypeMap` pointer refers to a created collection. -/
def handlersDomB (st : BusState) : Bool :=
  st.handlers.all (fun kv =>
    match kv.2 with
    | some c => (lookupA st.colls c).isSome
    | none => true)

/-- The registration allocation counter is fresh: every allocated
`EventRegistration` id is below `nextReg`. -/
def freshB (st : BusState) : Bool :=
  st.regs.all (fun kv => kv.1 < st.nextReg)

theorem collOwnerInvB_owner {st : BusState} {k : TypeKey}
    {nodes : List (NodeId × RegId)} (hInv : collOwnerInvB st = true)
    (hk : lookupA st.colls k = some nodes) {p : NodeId × RegId} (hp : p ∈ nodes)
    {record : RegRecord} (hr : lookupA st.regs p.2 = some record) :
    record.owner = k := by
  have hmem := lookupA_mem hk
  rw [collOwnerInvB, List.all_eq_true] at hInv
  have h1 := hInv (k, nodes) hmem
  rw [List.all_eq_true] at h1
  have h2 := h1 p hp
  simp only [hr, beq_iff_eq] at h2
  exact h2

theorem handlersPtrInvB_eq {st : BusState} {t c : TypeKey}
    (hPtr : handlersPtrInvB st = true)
    (h : lookupA st.handlers t = some (some c)) : c = t := by
  have hmem := lookupA_mem h
  rw [handlersPtrInvB, List.all_eq_true] at hPtr
  have h1 := hPtr (t, some c) hmem
  simp only [beq_iff_eq] at h1
  exact h1

theorem collsDomB_lookup {st : BusState} {k : TypeKey}
    {nodes : List (NodeId × RegId)} (hdom : collsDomB st = true)
    (hk : lookupA st.colls k = some nodes) :
    lookupA st.handlers k = some (some k) := by
  have hmem := lookupA_mem hk
  rw [collsDomB, List.all_eq_true] at hdom
  have h1 := hdom (k, nodes) hmem
  simp only [beq_iff_eq] at h1
  exact h1

theorem collsDomB_none {st : BusState} {t : TypeKey}
    (hdom : collsDomB st = true)
    (h : lookupA st.handlers t ≠ some (some t)) :
    lookupA st.colls t = none := by
  cases hc : lookupA st.colls t with
  | none => rfl
  | some nodes => exact absurd (collsDomB_lookup hdom hc) h

theorem handlersDomB_isSome {st : BusState} {t : TypeKey} {c : TypeKey}
    (hdom : handlersDomB st = true)
    (h : lookupA st.handlers t = some (some c)) :
    ∃ nodes, lookupA st.colls c = some nodes := by
  have hmem := lookupA_mem h
  rw [handlersDomB, List.all_eq_true] at hdom
  have h1 := hdom (t, some c) hmem
  simp only [Option.isSome_iff_exists] at h1
  exact h1

theorem freshB_lookup_none {st : BusState} (hfresh : freshB st = true) :
    lookupA st.regs st.nextReg = none := by
  apply lookupA_eq_none
  intro p hp
  rw [freshB, List.all_eq_true] at hfresh
  have h2 := hfresh p hp
  simp only [decide_eq_true_eq] at h2
  exact Nat.ne_of_lt h2

/-! ### The shape of a `removeHandler` step -/

theorem removeHandler_shape (st : BusState) (r : RegId) :
    removeHandler st r = st ∨
    ∃ record, lookupA st.regs r = some record ∧ record.registered = true ∧
      ((lookupA st.colls record.owner = none ∧
        removeHandler st r = { st with
          regs := updateA st.regs r { record with registered := false } }) ∨
       ∃ nodes, lookupA st.colls record.owner = some nodes ∧
         removeHandler st r = { st with
           colls := updateA st.colls record.owner
             (nodes.filter (fun p => p.2 != r)),
           freedNodes := st.freedNodes ++
             (nodes.filter (fun p => p.2 == r)).map (fun p => p.1),
           regs := updateA st.regs r { record with registered := false } }) := by
  unfold removeHandler
  cases hl : lookupA st.regs r with
  | none => exact Or.inl rfl
  | some record =>
      cases hreg : record.registered with
      | false =>
          refine Or.inl ?_
          simp only [hreg]
          rfl
      | true =>
          refine Or.inr ⟨record, rfl, hreg, ?_⟩
          cases hc : lookupA st.colls record.owner with
          | none =>
              refine Or.inl ⟨rfl, ?_⟩
              simp only [hreg, hc]
              rfl
          | some nodes =>
              refine Or.inr ⟨nodes, rfl, ?_⟩
              simp only [hreg, hc]
              rfl

theorem removeHandler_fields (st : BusState) (r : RegId) :
    (removeHandler st r).handlers = st.handlers ∧
    (removeHandler st r).collMap = st.collMap ∧
    ((removeHandler st r).colls = st.colls ∨
      ∃ record nodes, lookupA st.regs r = some record ∧
        lookupA st.colls record.owner = some nodes ∧
        (removeHandler st r).colls =
          updateA st.colls record.owner (nodes.filter (fun p => p.2 != r))) := by
  rcases removeHandler_shape st r with h | ⟨record, hr, -, ⟨-, h⟩ | ⟨nodes, hc, h⟩⟩
  · rw [h]; exact ⟨rfl, rfl, Or.inl rfl⟩
  · rw [h]; exact ⟨rfl, rfl, Or.inl rfl⟩
  · rw [h]; exact ⟨rfl, rfl, Or.inr ⟨record, nodes, hr, hc, rfl⟩⟩

/-! ### What a dispatch pass can invoke -/

/-- The registrations currently stored in collection `k`, in order. -/
def collRegs (st : BusState) (k : TypeKey) : List RegId :=
  ((lookupA st.colls k).getD []).map (fun p => p.2)

theorem collRegs_removeHandler_subset (st : BusState) (r : RegId)
    (k : TypeKey) :
    ∀ a ∈ collRegs (removeHandler st r) k, a ∈ collRegs st k := by
  intro a ha
  rcases (removeHandler_fields st r).2.2 with h | ⟨record, nodes, -, hc, h⟩
  · unfold collRegs at ha
    rw [h] at ha
    exact ha
  · unfold collRegs at ha ⊢
    rw [h] at ha
    by_cases hk : k = record.owner
    · subst hk
      rw [lookupA_updateA_self] at ha
      rw [hc]
      simp only [Option.getD_some] at ha ⊢
      obtain ⟨p, hp, hpa⟩ := List.mem_map.mp ha
      exact List.mem_map.mpr ⟨p, List.mem_of_mem_filter hp, hpa⟩
    · rw [lookupA_updateA_ne _ _ _ _ hk] at ha
      exact ha

theorem collRegs_foldl_subset (rs : List RegId) (st : BusState) (k : TypeKey) :
    ∀ a ∈ collRegs (rs.foldl removeHandler st) k, a ∈ collRegs st k := by
  induction rs generalizing st with
  | nil => intro a ha; exact ha
  | cons r rest ih =>
      intro a ha
      exact collRegs_removeHandler_subset st r k a (ih (removeHandler st r) a ha)

theorem collRegs_runHandler_subset (beh : Behavior) (h : HandlerId)
    (st : BusState) (k : TypeKey) :
    ∀ a ∈ collRegs (runHandler beh h st) k, a ∈ collRegs st k :=
  collRegs_foldl_subset (beh h) st k

theorem lookupNode_mem_collRegs {st : BusState} {c : TypeKey} {n : NodeId}
    {r : RegId} (h : lookupNode st c n = some r) : r ∈ collRegs st c := by
  unfold lookupNode at h
  rw [Option.map_eq_some'] at h
  obtain ⟨p, hf, hp⟩ := h
  have hmem := List.mem_of_find?_eq_some hf
  unfold collRegs
  exact List.mem_map.mpr ⟨p, hmem, hp⟩

/-! ### Unfolding equations for the dispatch loop -/

theorem fireLoop_zero (beh : Behavior) (c : TypeKey) (st : BusState)
    (cur : Option NodeId) : fireLoop beh c 0 st cur = .error .outOfFuel := rfl

theorem fireLoop_end (beh : Behavior) (c : TypeKey) (fuel : Nat)
    (st : BusState) : fireLoop beh c (fuel + 1) st none = .ok (st, []) := rfl

theorem fireLoop_step (beh : Behavior) (c : TypeKey) (fuel : Nat)
    (st : BusState) (n : NodeId) :
    fireLoop beh c (fuel + 1) st (some n) =
      match lookupNode st c n with
      | none => .error .useAfterFree
      | some r =>
        match lookupA st.regs r with
        | none => .error .danglingReg
        | some record =>
          match succAfter (runHandler beh record.handler st) c n with
          | none => .error .useAfterFree
          | some next =>
            match fireLoop beh c fuel (runHandler beh record.handler st) next with
            | .error err => .error err
            | .ok (st3, l) => .ok (st3, (r, record.handler) :: l) := rfl

theorem fireLoop_invoked_mem (beh : Behavior) (c : TypeKey) :
    ∀ (fuel : Nat) (st : BusState) (cur : Option NodeId) (st' : BusState)
      (l : List (RegId × HandlerId)),
      fireLoop beh c fuel st cur = .ok (st', l) →
      ∀ pr ∈ l, pr.1 ∈ collRegs st c := by
  intro fuel
  induction fuel with
  | zero =>
      intro st cur st' l h
      rw [fireLoop_zero] at h
      exact Except.noConfusion h
  | succ fuel ih =>
      intro st cur st' l h pr hpr
      cases cur with
      | none =>
          rw [fireLoop_end] at h
          injection h with h1
          injection h1 with h2 h3
          subst h3
          simp at hpr
      | some n =>
          rw [fireLoop_step] at h
          split at h
          · exact Except.noConfusion h
          · rename_i r heqNode
            split at h
            · exact Except.noConfusion h
            · rename_i record heqReg
              split at h
              · exact Except.noConfusion h
              · rename_i next heqSucc
                split at h
                · exact Except.noConfusion h
                · rename_i st3 l3 heqLoop
                  injection h with h1
                  injection h1 with h2 h3
                  subst h3
                  rcases List.mem_cons.mp hpr with hpr | hpr
                  · subst hpr
                    exact lookupNode_mem_collRegs heqNode
                  · have hmem := ih _ _ _ _ heqLoop pr hpr
                    exact collRegs_runHandler_subset beh record.handler
                      st c pr.1 hmem

/-! ### Unfolding equations for `FireEvent` -/

theorem fireEvent_absent (beh : Behavior) (st : BusState) (t : TypeKey)
    (fuel : Nat) (h : lookupA st.handlers t = none) :
    FireEvent beh st t fuel =
      .ok ({ st with handlers := st.handlers ++ [(t, none)] }, []) := by
  unfold FireEvent
  rw [h]

theorem fireEvent_nullColl (beh : Behavior) (st : BusState) (t : TypeKey)
    (fuel : Nat) (h : lookupA st.handlers t = some none) :
    FireEvent beh st t fuel = .ok (st, []) := by
  unfold FireEvent
  rw [h]

theorem fireEvent_coll (beh : Behavior) (st : BusState) (t : TypeKey)
    (fuel : Nat) (c : TypeKey) (h : lookupA st.handlers t = some (some c)) :
    FireEvent beh st t fuel =
      fireLoop beh c fuel st
        (((lookupA st.colls c).getD []).head?.map (fun p => p.1)) := by
  unfold FireEvent
  rw [h]

theorem fireEvent_invoked_mem (beh : Behavior) (st : BusState) (t : TypeKey)
    (fuel : Nat) (st' : BusState) (l : List (RegId × HandlerId))
    (h : FireEvent beh st t fuel = .ok (st', l)) :
    ∀ pr ∈ l, ∃ c, lookupA st.handlers t = some (some c) ∧
      pr.1 ∈ collRegs st c := by
  intro pr hpr
  cases hl : lookupA st.handlers t with
  | none =>
      rw [fireEvent_absent beh st t fuel hl] at h
      injection h with h1
      injection h1 with h2 h3
      subst h3
      simp at hpr
  | some v =>
      cases v with
      | none =>
          rw [fireEvent_nullColl beh st t fuel hl] at h
          injection h with h1
          injection h1 with h2 h3
          subst h3
          simp at hpr
      | some c =>
          rw [fireEvent_coll beh st t fuel c hl] at h
          exact ⟨c, rfl, fireLoop_invoked_mem beh c fuel st _ st' l h pr hpr⟩

/-- C1: Type isolation of the typed-registry path — for every handler
registration filed for concrete event type `A` (its record's `owner` is `A`)
and every event whose runtime concrete type `t` differs from `A`,
`FireEvent` never dispatches to that registration: it only invokes handlers
stored in the collection keyed by the event's exact runtime type key. -/
theorem fireEvent_type_isolation (beh : Behavior) (st : BusState) (t : TypeKey)
    (fuel : Nat) (r : RegId) (record : RegRecord) (st' : BusState)
    (l : List (RegId × HandlerId))
    (hInv : collOwnerInvB st = true)
    (hPtr : handlersPtrInvB st = true)
    (hr : lookupA st.regs r = some record)
    (hne : record.owner ≠ t)
    (hfire : FireEvent beh st t fuel = .ok (st', l)) :
    ∀ h, (r, h) ∉ l := by
  intro h hmem
  obtain ⟨c, hc, hcoll⟩ :=
    fireEvent_invoked_mem beh st t fuel st' l hfire (r, h) hmem
  have hct : c = t := handlersPtrInvB_eq hPtr hc
  subst hct
  unfold collRegs at hcoll
  cases hcolls : lookupA st.colls c with
  | none => rw [hcolls] at hcoll; simp at hcoll
  | some nodes =>
      rw [hcolls] at hcoll
      simp only [Option.getD_some] at hcoll
      obtain ⟨p, hp, hp2⟩ := List.mem_map.mp hcoll
      have howner : record.owner = c := by
        apply collOwnerInvB_owner hInv hcolls hp
        rw [show p.2 = r from hp2]
        exact hr
      exact hne howner

/-- The bus after `AddHandler<A>(h)` on a fresh bus, used as the concrete
input of the C1 witness (type key `A = 0`, handler id `5`). -/
def c1State : BusState := (AddHandler1 initState 0 5).1

/-- Witness for C1: on a bus holding one handler registered for type key 0,
firing an event of type key 1 dispatches to nothing, and in particular not to
that registration. -/
theorem fireEvent_type_isolation_witness :
    lookupA c1State.regs 0 = some ⟨5, 0, PtrVal.null, true⟩ ∧
      ∀ h, (0, h) ∉ ([] : List (RegId × HandlerId)) :=
  ⟨by decide,
   fireEvent_type_isolation noopBeh c1State 1 1 0 ⟨5, 0, PtrVal.null, true⟩
     { c1State with handlers := c1State.handlers ++ [(1, none)] } []
     (by decide) (by decide) (by decide) (by decide) rfl⟩

/-! ### A dispatch pass with handlers that do not mutate the bus -/

/-- The handler id stored by registration `r` (defaulting to 0 when `r` is
not allocated; only used where the registration is known to exist). -/
def regHandlerD (st : BusState) (r : RegId) : HandlerId :=
  ((lookupA st.regs r).map (fun record => record.handler)).getD 0

theorem runHandler_noop (h : HandlerId) (st : BusState) :
    runHandler noopBeh h st = st := rfl

theorem find?_node_append (pre : List (NodeId × RegId)) (n : NodeId)
    (r : RegId) (rest : List (NodeId × RegId)) (h : ∀ p ∈ pre, p.1 ≠ n) :
    (pre ++ (n, r) :: rest).find? (fun p => p.1 == n) = some (n, r) := by
  induction pre with
  | nil => simp [List.find?]
  | cons q qs ih =>
      have hq : q.1 ≠ n := h q (List.mem_cons_self _ _)
      rw [List.cons_append, List.find?_cons_of_neg]
      · exact ih (fun p hp => h p (List.mem_cons_of_mem _ hp))
      · simp [hq]

theorem succOf_append (pre : List (NodeId × RegId)) (n : NodeId) (r : RegId)
    (rest : List (NodeId × RegId)) (h : ∀ p ∈ pre, p.1 ≠ n) :
    succOf (pre ++ (n, r) :: rest) n =
      some ((rest.head?).map (fun q => q.1)) := by
  induction pre with
  | nil => simp [succOf]
  | cons q qs ih =>
      have hq : q.1 ≠ n := h q (List.mem_cons_self _ _)
      rw [List.cons_append]
      obtain ⟨qn, qr⟩ := q
      simp only [succOf, if_neg hq]
      exact ih (fun p hp => h p (List.mem_cons_of_mem _ hp))

theorem fireLoop_noop_run (st : BusState) (c : TypeKey) :
    ∀ (suffix pre : List (NodeId × RegId)) (fuel : Nat),
      lookupA st.colls c = some (pre ++ suffix) →
      ((pre ++ suffix).map (fun p => p.1)).Nodup →
      (∀ p ∈ suffix, (lookupA st.regs p.2).isSome = true) →
      suffix.length < fuel →
      fireLoop noopBeh c fuel st ((suffix.head?).map (fun p => p.1)) =
        .ok (st, suffix.map (fun p => (p.2, regHandlerD st p.2))) := by
  intro suffix
  induction suffix with
  | nil =>
      intro pre fuel _ _ _ hfuel
      cases fuel with
      | zero => exact absurd hfuel (by simp)
      | succ fuel => exact fireLoop_end noopBeh c fuel st
  | cons q qs ih =>
      intro pre fuel hc hnd hregs hfuel
      obtain ⟨n, r⟩ := q
      cases fuel with
      | zero => exact absurd hfuel (by simp)
      | succ fuel =>
          have hnd' := hnd
          rw [List.map_append, List.nodup_append] at hnd'
          obtain ⟨-, -, hdisj⟩ := hnd'
          have hnotpre : ∀ p ∈ pre, p.1 ≠ n := by
            intro p hp hcontra
            exact hdisj (List.mem_map.mpr ⟨p, hp, hcontra⟩)
              (by simp [List.map_cons])
          have hnode : lookupNode st c n = some r := by
            unfold lookupNode
            rw [hc]
            simp only [Option.getD_some]
            rw [find?_node_append pre n r qs hnotpre]
            rfl
          have hrs : (lookupA st.regs r).isSome = true :=
            hregs (n, r) (List.mem_cons_self _ _)
          obtain ⟨record, hrec⟩ := Option.isSome_iff_exists.mp hrs
          have hsucc : succAfter st c n =
              some ((qs.head?).map (fun p => p.1)) := by
            unfold succAfter
            rw [hc]
            simp only [Option.getD_some]
            exact succOf_append pre n r qs hnotpre
          have hloop := ih (pre ++ [(n, r)]) fuel
            (by rw [List.append_assoc]; exact hc)
            (by rw [List.append_assoc]; exact hnd)
            (fun p hp => hregs p (List.mem_cons_of_mem _ hp))
            (Nat.lt_of_succ_lt_succ hfuel)
          rw [show ((((n, r) :: qs).head?).map (fun p => p.1)) = some n from rfl,
            fireLoop_step]
          simp only [hnode, hrec, runHandler_noop, hsucc, hloop,
            List.map_cons]
          simp [regHandlerD, hrec]

theorem fireEvent_noop_pass (st : BusState) (t c : TypeKey)
    (nodes : List (NodeId × RegId)) (fuel : Nat)
    (hptr : lookupA st.handlers t = some (some c))
    (hcol : lookupA st.colls c = some nodes)
    (hnd : (nodes.map (fun p => p.1)).Nodup)
    (hregs : ∀ p ∈ nodes, (lookupA st.regs p.2).isSome = true)
    (hfuel : nodes.length < fuel) :
    FireEvent noopBeh st t fuel =
      .ok (st, nodes.map (fun p => (p.2, regHandlerD st p.2))) := by
  rw [fireEvent_coll noopBeh st t fuel c hptr, hcol]
  simp only [Option.getD_some]
  exact fireLoop_noop_run st c nodes [] fuel (by simpa using hcol)
    (by simpa using hnd) hregs hfuel

/-- C2: Registration-order dispatch — with no revocations during the pass,
`FireEvent` dispatches to exactly the registrations currently in the
collection for the event's type, in collection order (registration order,
adjusted for any removals that occurred before the call), returning the bus
unchanged. -/
theorem fireEvent_registration_order (st : BusState) (t c : TypeKey)
    (nodes : List (NodeId × RegId)) (fuel : Nat)
    (hptr : lookupA st.handlers t = some (some c))
    (hcol : lookupA st.colls c = some nodes)
    (hnd : (nodes.map (fun p => p.1)).Nodup)
    (hregs : ∀ p ∈ nodes, (lookupA st.regs p.2).isSome = true)
    (hfuel : nodes.length < fuel) :
    FireEvent noopBeh st t fuel =
      .ok (st, nodes.map (fun p => (p.2, regHandlerD st p.2))) :=
  fireEvent_noop_pass st t c nodes fuel hptr hcol hnd hregs hfuel

/-- The bus after registering three handlers (ids 1, 2, 3, in that order)
for type key 0 on a fresh bus: the concrete input of the C2 witness. -/
def c2State : BusState :=
  (AddHandler1 (AddHandler1 (AddHandler1 initState 0 1).1 0 2).1 0 3).1

/-- Witness for C2: with handlers 1, 2, 3 registered for type key 0 in that
order, firing an event of type key 0 dispatches to them exactly in that
order. -/
theorem fireEvent_registration_order_witness :
    FireEvent noopBeh c2State 0 4 = .ok (c2State, [(0, 1), (1, 2), (2, 3)]) := by
  have h := fireEvent_registration_order c2State 0 0 [(0, 0), (1, 1), (2, 2)] 4
    (by decide) (by decide) (by decide) (by decide) (by decide)
  have hmap : ([(0, 0), (1, 1), (2, 2)] : List (NodeId × RegId)).map
      (fun p => (p.2, regHandlerD c2State p.2)) = [(0, 1), (1, 2), (2, 3)] := by
    decide
  rw [hmap] at h
  exact h

/-! ### Self-removal during dispatch (C3) -/

/-- The bus after registering handler 1 and then handler 2 for type key 0 on
a fresh bus; the first `AddHandler` call returned registration handle 0. -/
def c3State : BusState :=
  (AddHandler1 (AddHandler1 initState 0 1).1 0 2).1

/-- Handler 1 calls `removeHandler()` on its own registration (handle 0)
while being dispatched to; handler 2 does nothing. -/
def c3Beh : Behavior := fun h => if h = 1 then [0] else []

/-- C3 (evaluation at the failing input): when handler 1 revokes its own
registration during dispatch, `registrations->remove(this)` erases exactly
the `std::list` node the range-for iterator of `FireEvent` points at, so the
loop's next `++it` reads a freed node — undefined behaviour in C++.  The
model therefore reports `useAfterFree` instead of completing the pass and
dispatching to the not-yet-visited handler 2. -/
theorem fireEvent_self_removal_uaf :
    FireEvent c3Beh c3State 0 5 = .error .useAfterFree := rfl

/-! ### Idempotent revocation (C5) -/

theorem removeHandler_of_unregistered (st : BusState) (r : RegId)
    (record : RegRecord) (h : lookupA st.regs r = some record)
    (hreg : record.registered = false) : removeHandler st r = st := by
  unfold removeHandler
  simp [h, hreg]

theorem removeHandler_shape_registered (st : BusState) (r : RegId)
    (record : RegRecord) (hr : lookupA st.regs r = some record)
    (hreg : record.registered = true) :
    (lookupA st.colls record.owner = none ∧
      removeHandler st r = { st with
        regs := updateA st.regs r { record with registered := false } }) ∨
    ∃ nodes, lookupA st.colls record.owner = some nodes ∧
      removeHandler st r = { st with
        colls := updateA st.colls record.owner
          (nodes.filter (fun p => p.2 != r)),
        freedNodes := st.freedNodes ++
          (nodes.filter (fun p => p.2 == r)).map (fun p => p.1),
        regs := updateA st.regs r { record with registered := false } } := by
  unfold removeHandler
  cases hc : lookupA st.colls record.owner with
  | none =>
      refine Or.inl ⟨rfl, ?_⟩
      simp [hr, hreg, hc]
  | some nodes =>
      refine Or.inr ⟨nodes, rfl, ?_⟩
      simp [hr, hreg, hc]

theorem removeHandler_not_in_colls (st : BusState) (r : RegId)
    (record : RegRecord) (hInv : collOwnerInvB st = true)
    (hr : lookupA st.regs r = some record) (hreg : record.registered = true) :
    ∀ k nodes, lookupA (removeHandler st r).colls k = some nodes →
      ∀ p ∈ nodes, p.2 ≠ r := by
  intro k nodes hk p hp hcontra
  rcases removeHandler_shape_registered st r record hr hreg with
    ⟨hc, h⟩ | ⟨nodes0, hc, h⟩
  · rw [h] at hk
    have howner : record.owner = k := by
      apply collOwnerInvB_owner hInv hk hp
      rw [hcontra]
      exact hr
    rw [howner] at hc
    rw [hc] at hk
    exact Option.noConfusion hk
  · rw [h] at hk
    by_cases hko : k = record.owner
    · subst hko
      rw [lookupA_updateA_self] at hk
      injection hk with hk1
      subst hk1
      have := List.of_mem_filter hp
      simp [hcontra] at this
    · rw [lookupA_updateA_ne _ _ _ _ hko] at hk
      have howner : record.owner = k := by
        apply collOwnerInvB_owner hInv hk hp
        rw [hcontra]
        exact hr
      exact hko howner.symm

theorem removeHandler_idem_raw (st : BusState) (r : RegId) :
    removeHandler (removeHandler st r) r = removeHandler st r := by
  cases hl : lookupA st.regs r with
  | none =>
      have h : removeHandler st r = st := by
        unfold removeHandler
        simp [hl]
      rw [h]
      exact h
  | some record =>
      cases hreg : record.registered with
      | false =>
          rw [removeHandler_of_unregistered st r record hl hreg]
          exact removeHandler_of_unregistered st r record hl hreg
      | true =>
          have hl' : lookupA (removeHandler st r).regs r =
              some { record with registered := false } := by
            rcases removeHandler_shape_registered st r record hl hreg with
              ⟨-, h⟩ | ⟨nodes, -, h⟩
            · rw [h]
              exact lookupA_updateA_self _ _ _
            · rw [h]
              exact lookupA_updateA_self _ _ _
          exact removeHandler_of_unregistered (removeHandler st r) r
            { record with registered := false } hl' rfl

theorem removeHandler_not_invoked (st : BusState) (r : RegId)
    (record : RegRecord) (hInv : collOwnerInvB st = true)
    (hr : lookupA st.regs r = some record) (hreg : record.registered = true) :
    ∀ (beh : Behavior) (t : TypeKey) (fuel : Nat) (st' : BusState)
      (l : List (RegId × HandlerId)),
      FireEvent beh (removeHandler st r) t fuel = .ok (st', l) →
      ∀ h, (r, h) ∉ l := by
  intro beh t fuel st' l hfire h hmem
  obtain ⟨c, hc, hcoll⟩ :=
    fireEvent_invoked_mem beh (removeHandler st r) t fuel st' l hfire (r, h) hmem
  unfold collRegs at hcoll
  cases hcolls : lookupA (removeHandler st r).colls c with
  | none => rw [hcolls] at hcoll; simp at hcoll
  | some nodes =>
      rw [hcolls] at hcoll
      simp only [Option.getD_some] at hcoll
      obtain ⟨p, hp, hp2⟩ := List.mem_map.mp hcoll
      exact removeHandler_not_in_colls st r record hInv hr hreg c nodes
        hcolls p hp hp2

/-- C5: Idempotent revocation — for a live (still registered) registration
handle, the first `removeHandler()` call removes the registration from its
owning collection (it appears in no collection afterwards and is never
dispatched to by later `FireEvent` calls), and any further `removeHandler()`
call leaves the bus state exactly unchanged. -/
theorem removeHandler_idempotent_revocation (st : BusState) (r : RegId)
    (record : RegRecord) (hInv : collOwnerInvB st = true)
    (hr : lookupA st.regs r = some record) (hreg : record.registered = true) :
    (∀ k nodes, lookupA (removeHandler st r).colls k = some nodes →
      ∀ p ∈ nodes, p.2 ≠ r) ∧
    (∀ (beh : Behavior) (t : TypeKey) (fuel : Nat) (st' : BusState)
      (l : List (RegId × HandlerId)),
      FireEvent beh (removeHandler st r) t fuel = .ok (st', l) →
      ∀ h, (r, h) ∉ l) ∧
    removeHandler (removeHandler st r) r = removeHandler st r :=
  ⟨removeHandler_not_in_colls st r record hInv hr hreg,
   removeHandler_not_invoked st r record hInv hr hreg,
   removeHandler_idem_raw st r⟩

/-- The bus after `AddHandler<T>(h)` on a fresh bus (type key 0, handler id
5, registration handle 0): the concrete input of the C5 witness. -/
def c5State : BusState := (AddHandler1 initState 0 5).1

/-- Witness for C5 at `c5State` and registration handle 0. -/
theorem removeHandler_idempotent_revocation_witness :
    (lookupA c5State.regs 0 = some ⟨5, 0, PtrVal.null, true⟩) ∧
    ((∀ k nodes, lookupA (removeHandler c5State 0).colls k = some nodes →
        ∀ p ∈ nodes, p.2 ≠ 0) ∧
     (∀ (beh : Behavior) (t : TypeKey) (fuel : Nat) (st' : BusState)
        (l : List (RegId × HandlerId)),
        FireEvent beh (removeHandler c5State 0) t fuel = .ok (st', l) →
        ∀ h, (0, h) ∉ l) ∧
     removeHandler (removeHandler c5State 0) 0 = removeHandler c5State 0) :=
  ⟨by decide,
   removeHandler_idempotent_revocation c5State 0 ⟨5, 0, PtrVal.null, true⟩
     (by decide) (by decide) rfl⟩

/-! ### The shape of an `AddHandler` step -/

theorem lookupA_append_left {β : Type} {l l2 : List (Nat × β)} {k : Nat}
    {v : β} (h : lookupA l k = some v) : lookupA (l ++ l2) k = some v := by
  rw [lookupA_append, h]

theorem addHandlerCore_shape_absent (st : BusState) (t : TypeKey)
    (h : HandlerId) (sf : PtrVal) (hl : lookupA st.handlers t = none)
    (hcoll : lookupA st.colls t = none) :
    addHandlerCore st t h sf =
      ({ st with
          handlers := updateA (st.handlers ++ [(t, none)]) t (some t),
          colls := updateA (st.colls ++ [(t, [])]) t
            [(st.nextNode, st.nextReg)],
          regs := st.regs ++ [(st.nextReg, ⟨h, t, sf, true⟩)],
          nextReg := st.nextReg + 1,
          nextNode := st.nextNode + 1 }, st.nextReg) := by
  unfold addHandlerCore collAppend
  simp only [hl, lookupA_append_right_of_none ([] : List (NodeId × RegId)) hcoll,
    List.nil_append]

theorem addHandlerCore_shape_create (st : BusState) (t : TypeKey)
    (h : HandlerId) (sf : PtrVal) (hl : lookupA st.handlers t = some none)
    (hcoll : lookupA st.colls t = none) :
    addHandlerCore st t h sf =
      ({ st with
          handlers := updateA st.handlers t (some t),
          colls := updateA (st.colls ++ [(t, [])]) t
            [(st.nextNode, st.nextReg)],
          regs := st.regs ++ [(st.nextReg, ⟨h, t, sf, true⟩)],
          nextReg := st.nextReg + 1,
          nextNode := st.nextNode + 1 }, st.nextReg) := by
  unfold addHandlerCore collAppend
  simp only [hl, lookupA_append_right_of_none ([] : List (NodeId × RegId)) hcoll,
    List.nil_append]

theorem addHandlerCore_shape_existing (st : BusState) (t : TypeKey)
    (h : HandlerId) (sf : PtrVal) (c : TypeKey)
    (nodes : List (NodeId × RegId))
    (hl : lookupA st.handlers t = some (some c))
    (hcoll : lookupA st.colls c = some nodes) :
    addHandlerCore st t h sf =
      ({ st with
          colls := updateA st.colls c (nodes ++ [(st.nextNode, st.nextReg)]),
          regs := st.regs ++ [(st.nextReg, ⟨h, c, sf, true⟩)],
          nextReg := st.nextReg + 1,
          nextNode := st.nextNode + 1 }, st.nextReg) := by
  unfold addHandlerCore collAppend
  simp only [hl, hcoll]

theorem fireEvent_singleton_coll (st : BusState) (t c : TypeKey)
    (nid : NodeId) (rid : RegId) (record : RegRecord) (fuel : Nat)
    (hptr : lookupA st.handlers t = some (some c))
    (hcol : lookupA st.colls c = some [(nid, rid)])
    (hreg : lookupA st.regs rid = some record)
    (hfuel : 1 < fuel) :
    FireEvent noopBeh st t fuel = .ok (st, [(rid, record.handler)]) := by
  have h := fireEvent_noop_pass st t c [(nid, rid)] fuel hptr hcol
    (by simp)
    (by
      intro p hp
      rw [List.mem_singleton] at hp
      subst hp
      rw [hreg]
      rfl)
    (by simpa using hfuel)
  have hmap : ([(nid, rid)] : List (NodeId × RegId)).map
      (fun p => (p.2, regHandlerD st p.2)) = [(rid, record.handler)] := by
    simp [regHandlerD, hreg]
  rw [hmap] at h
  exact h

/-! ### Firing with no live subscribers (C4) -/

/-- No live subscriber for type `t`: the `TypeMap` has no entry, a null
entry, or a pointer to an empty collection (all handlers revoked). -/
def noLiveSubscribers (st : BusState) (t : TypeKey) : Bool :=
  match lookupA st.handlers t with
  | none => true
  | some none => true
  | some (some c) => ((lookupA st.colls c).getD []).isEmpty

/-- The `operator[]` side effect of `FireEvent` on the `TypeMap`: a null
entry is inserted when the key was absent, otherwise nothing changes. -/
def fireTouch (st : BusState) (t : TypeKey) : BusState :=
  match lookupA st.handlers t with
  | none => { st with handlers := st.handlers ++ [(t, none)] }
  | some _ => st

theorem fireTouch_absent {st : BusState} {t : TypeKey}
    (h : lookupA st.handlers t = none) :
    fireTouch st t = { st with handlers := st.handlers ++ [(t, none)] } := by
  unfold fireTouch
  rw [h]

theorem fireTouch_present {st : BusState} {t : TypeKey} {v : Option TypeKey}
    (h : lookupA st.handlers t = some v) : fireTouch st t = st := by
  unfold fireTouch
  rw [h]

theorem fireEvent_noSubscribers (beh : Behavior) (st : BusState) (t : TypeKey)
    (fuel : Nat) (hempty : noLiveSubscribers st t = true) (hfuel : 0 < fuel) :
    FireEvent beh st t fuel = .ok (fireTouch st t, []) := by
  cases hl : lookupA st.handlers t with
  | none =>
      rw [fireEvent_absent beh st t fuel hl, fireTouch_absent hl]
  | some v =>
      cases v with
      | none => rw [fireEvent_nullColl beh st t fuel hl, fireTouch_present hl]
      | some c =>
          unfold noLiveSubscribers at hempty
          simp only [hl] at hempty
          have hnil : (lookupA st.colls c).getD [] = [] :=
            List.isEmpty_iff.mp hempty
          rw [fireEvent_coll beh st t fuel c hl, hnil, fireTouch_present hl]
          cases fuel with
          | zero => exact absurd hfuel (by simp)
          | succ fuel => exact fireLoop_end beh c fuel st

theorem noLiveSubscribers_of_some_none (st : BusState) (t : TypeKey)
    (h : lookupA st.handlers t = some none) :
    noLiveSubscribers st t = true := by
  unfold noLiveSubscribers
  rw [h]

theorem fireTouch_invariants (st : BusState) (t : TypeKey)
    (hempty : noLiveSubscribers st t = true)
    (hdom : collsDomB st = true) (hpdom : handlersDomB st = true)
    (hfresh : freshB st = true) :
    noLiveSubscribers (fireTouch st t) t = true ∧
    collsDomB (fireTouch st t) = true ∧
    handlersDomB (fireTouch st t) = true ∧
    freshB (fireTouch st t) = true := by
  cases hl : lookupA st.handlers t with
  | some v =>
      rw [fireTouch_present hl]
      exact ⟨hempty, hdom, hpdom, hfresh⟩
  | none =>
      rw [fireTouch_absent hl]
      refine ⟨?_, ?_, ?_, ?_⟩
      · exact noLiveSubscribers_of_some_none _ t
          (show lookupA (st.handlers ++ [(t, none)]) t = some none from
            lookupA_append_right_of_none _ hl)
      · show st.colls.all (fun kn =>
          lookupA (st.handlers ++ [(t, none)]) kn.1 == some (some kn.1)) = true
        rw [List.all_eq_true]
        intro kn hkn
        unfold collsDomB at hdom
        rw [List.all_eq_true] at hdom
        have h1 := hdom kn hkn
        simp only [beq_iff_eq] at h1 ⊢
        exact lookupA_append_left h1
      · show (st.handlers ++ [(t, none)]).all (fun kv =>
          match kv.2 with
          | some c => (lookupA st.colls c).isSome
          | none => true) = true
        rw [List.all_append]
        unfold handlersDomB at hpdom
        rw [hpdom]
        rfl
      · exact hfresh

theorem fireEvent_after_add (st : BusState) (t : TypeKey) (h : HandlerId)
    (fuel : Nat)
    (hempty : noLiveSubscribers st t = true)
    (hdom : collsDomB st = true)
    (hpdom : handlersDomB st = true)
    (hfresh : freshB st = true)
    (hfuel : 1 < fuel) :
    FireEvent noopBeh (AddHandler1 st t h).1 t fuel =
      .ok ((AddHandler1 st t h).1, [((AddHandler1 st t h).2, h)]) := by
  cases hl : lookupA st.handlers t with
  | none =>
      have hcoll : lookupA st.colls t = none :=
        collsDomB_none hdom (by rw [hl]; simp)
      unfold AddHandler1
      rw [addHandlerCore_shape_absent st t h PtrVal.null hl hcoll]
      exact fireEvent_singleton_coll _ t t st.nextNode st.nextReg
        ⟨h, t, PtrVal.null, true⟩ fuel (lookupA_updateA_self _ _ _)
        (lookupA_updateA_self _ _ _)
        (lookupA_append_right_of_none _ (freshB_lookup_none hfresh)) hfuel
  | some v =>
      cases v with
      | none =>
          have hcoll : lookupA st.colls t = none :=
            collsDomB_none hdom (by rw [hl]; simp)
          unfold AddHandler1
          rw [addHandlerCore_shape_create st t h PtrVal.null hl hcoll]
          exact fireEvent_singleton_coll _ t t st.nextNode st.nextReg
            ⟨h, t, PtrVal.null, true⟩ fuel (lookupA_updateA_self _ _ _)
            (lookupA_updateA_self _ _ _)
            (lookupA_append_right_of_none _ (freshB_lookup_none hfresh)) hfuel
      | some c =>
          obtain ⟨nodes, hnodes⟩ := handlersDomB_isSome hpdom hl
          have hnil : nodes = [] := by
            unfold noLiveSubscribers at hempty
            simp only [hl, hnodes] at hempty
            simpa using hempty
          subst hnil
          unfold AddHandler1
          rw [addHandlerCore_shape_existing st t h PtrVal.null c [] hl hnodes]
          exact fireEvent_singleton_coll _ t c st.nextNode st.nextReg
            ⟨h, c, PtrVal.null, true⟩ fuel hl (lookupA_updateA_self _ _ _)
            (lookupA_append_right_of_none _ (freshB_lookup_none hfresh)) hfuel

/-- C4: No-subscriber no-op — if type `t` has no `TypeMap` entry, a null
entry, or an (emptied) collection with no registrations, then `FireEvent`
returns normally having dispatched to nothing (whatever the handlers would
do), and a subsequent `AddHandler` for that same type still works: the next
`FireEvent` dispatches to exactly the newly added handler. -/
theorem fireEvent_no_subscriber_then_add (beh : Behavior) (st : BusState)
    (t : TypeKey) (h : HandlerId) (fuel : Nat)
    (hempty : noLiveSubscribers st t = true)
    (hdom : collsDomB st = true)
    (hpdom : handlersDomB st = true)
    (hfresh : freshB st = true)
    (hfuel : 1 < fuel) :
    ∃ st', FireEvent beh st t fuel = .ok (st', []) ∧
      FireEvent noopBeh (AddHandler1 st' t h).1 t fuel =
        .ok ((AddHandler1 st' t h).1, [((AddHandler1 st' t h).2, h)]) := by
  obtain ⟨he, hd, hp, hf⟩ := fireTouch_invariants st t hempty hdom hpdom hfresh
  exact ⟨fireTouch st t,
    fireEvent_noSubscribers beh st t fuel hempty (by omega),
    fireEvent_after_add (fireTouch st t) t h fuel he hd hp hf hfuel⟩

/-- Witness for C4: on a fresh bus, firing an event of type key 0 is a
silent no-op, and registering handler 7 for that same type afterwards makes
the next `FireEvent` dispatch to it. -/
theorem fireEvent_no_subscriber_then_add_witness :
    (noLiveSubscribers initState 0 = true) ∧
    ∃ st', FireEvent noopBeh initState 0 2 = .ok (st', []) ∧
      FireEvent noopBeh (AddHandler1 st' 0 7).1 0 2 =
        .ok ((AddHandler1 st' 0 7).1, [((AddHandler1 st' 0 7).2, 7)]) :=
  ⟨by decide,
   fireEvent_no_subscriber_then_add noopBeh initState 0 7 2
     (by decide) (by decide) (by decide) (by decide) (by decide)⟩

/-! ### Sender-blind dispatch (C6) -/

/-- Replace the stored sender of one registration record. -/
def senderSet (f : RegId → PtrVal) (k : Nat) (record : RegRecord) : RegRecord :=
  { record with sender := f k }

/-- Overwrite the stored sender of every allocated registration, leaving all
other bus state alone. -/
def setSenders (f : RegId → PtrVal) (st : BusState) : BusState :=
  { st with regs := st.regs.map (fun kv => (kv.1, senderSet f kv.1 kv.2)) }

theorem senderSet_handler (f : RegId → PtrVal) (k : Nat) (record : RegRecord) :
    (senderSet f k record).handler = record.handler := rfl

theorem senderSet_registered (f : RegId → PtrVal) (k : Nat)
    (record : RegRecord) :
    (senderSet f k record).registered = record.registered := rfl

theorem senderSet_flag_comm (f : RegId → PtrVal) (k : Nat)
    (record : RegRecord) :
    ({ senderSet f k record with registered := false } : RegRecord) =
      senderSet f k { record with registered := false } := rfl

theorem lookupA_setSenders (f : RegId → PtrVal) (st : BusState) (r : RegId) :
    lookupA (setSenders f st).regs r =
      (lookupA st.regs r).map (senderSet f r) :=
  lookupA_map_kv (senderSet f) st.regs r

theorem lookupNode_setSenders (f : RegId → PtrVal) (st : BusState)
    (c : TypeKey) (n : NodeId) :
    lookupNode (setSenders f st) c n = lookupNode st c n := rfl

theorem succAfter_setSenders (f : RegId → PtrVal) (st : BusState)
    (c : TypeKey) (n : NodeId) :
    succAfter (setSenders f st) c n = succAfter st c n := rfl

theorem removeHandler_setSenders (f : RegId → PtrVal) (st : BusState)
    (r : RegId) :
    removeHandler (setSenders f st) r = setSenders f (removeHandler st r) := by
  cases hl : lookupA st.regs r with
  | none =>
      have h1 : lookupA (setSenders f st).regs r = none := by
        rw [lookupA_setSenders, hl]
        rfl
      have h2 : removeHandler st r = st := by
        unfold removeHandler
        simp [hl]
      have h3 : removeHandler (setSenders f st) r = setSenders f st := by
        unfold removeHandler
        simp [h1]
      rw [h2, h3]
  | some record =>
      have h1 : lookupA (setSenders f st).regs r = some (senderSet f r record) := by
        rw [lookupA_setSenders, hl]
        rfl
      cases hreg : record.registered with
      | false =>
          rw [removeHandler_of_unregistered st r record hl hreg,
            removeHandler_of_unregistered (setSenders f st) r
              (senderSet f r record) h1 hreg]
      | true =>
          rcases removeHandler_shape_registered st r record hl hreg with
            ⟨hc, h2⟩ | ⟨nodes, hc, h2⟩
          · rcases removeHandler_shape_registered (setSenders f st) r
              (senderSet f r record) h1 hreg with ⟨hcS, h3⟩ | ⟨nodesS, hcS, h3⟩
            · rw [h2, h3, senderSet_flag_comm]
              simp only [setSenders]
              rw [updateA_map_kv (senderSet f) st.regs r]
            · exact absurd (hcS.symm.trans hc) (by simp)
          · rcases removeHandler_shape_registered (setSenders f st) r
              (senderSet f r record) h1 hreg with ⟨hcS, h3⟩ | ⟨nodesS, hcS, h3⟩
            · exact absurd (hcS.symm.trans hc) (by simp)
            · have hnn : nodesS = nodes := by
                have := hcS.symm.trans hc
                injection this
              subst hnn
              rw [h2, h3, senderSet_flag_comm]
              simp only [setSenders]
              rw [updateA_map_kv (senderSet f) st.regs r]
              rfl

theorem foldl_removeHandler_setSenders (f : RegId → PtrVal) (rs : List RegId) :
    ∀ st : BusState,
      rs.foldl removeHandler (setSenders f st) =
        setSenders f (rs.foldl removeHandler st) := by
  induction rs with
  | nil => intro st; rfl
  | cons r rest ih =>
      intro st
      show rest.foldl removeHandler (removeHandler (setSenders f st) r) = _
      rw [removeHandler_setSenders]
      exact ih (removeHandler st r)

theorem runHandler_setSenders (f : RegId → PtrVal) (beh : Behavior)
    (h : HandlerId) (st : BusState) :
    runHandler beh h (setSenders f st) = setSenders f (runHandler beh h st) :=
  foldl_removeHandler_setSenders f (beh h) st

theorem fireLoop_setSenders (f : RegId → PtrVal) (beh : Behavior)
    (c : TypeKey) :
    ∀ (fuel : Nat) (st : BusState) (cur : Option NodeId),
      fireLoop beh c fuel (setSenders f st) cur =
        (fireLoop beh c fuel st cur).map
          (fun res => (setSenders f res.1, res.2)) := by
  intro fuel
  induction fuel with
  | zero => intro st cur; rw [fireLoop_zero, fireLoop_zero]; rfl
  | succ fuel ih =>
      intro st cur
      cases cur with
      | none => rw [fireLoop_end, fireLoop_end]; rfl
      | some n =>
          rw [fireLoop_step, fireLoop_step, lookupNode_setSenders]
          cases hN : lookupNode st c n with
          | none => rfl
          | some r =>
              simp only [lookupA_setSenders]
              cases hR : lookupA st.regs r with
              | none => rfl
              | some record =>
                  simp only [Option.map_some', senderSet_handler,
                    runHandler_setSenders, succAfter_setSenders]
                  cases hS : succAfter (runHandler beh record.handler st) c n with
                  | none => rfl
                  | some next =>
                      simp only [ih (runHandler beh record.handler st) next]
                      cases hL : fireLoop beh c fuel
                          (runHandler beh record.handler st) next with
                      | error err => rfl
                      | ok res =>
                          obtain ⟨st3, l3⟩ := res
                          rfl

/-- C6: Sender-blind dispatch — `FireEvent` never consults the stored
senders: overwriting every registration's stored sender with arbitrary
values changes nothing about which registrations are dispatched to, in what
order, or how the rest of the bus state evolves.  (`FireEvent` also takes no
source argument, so the identity of the firing party cannot influence
dispatch either.) -/
theorem fireEvent_sender_blind (f : RegId → PtrVal) (beh : Behavior)
    (st : BusState) (t : TypeKey) (fuel : Nat) :
    FireEvent beh (setSenders f st) t fuel =
      (FireEvent beh st t fuel).map
        (fun res => (setSenders f res.1, res.2)) := by
  cases hl : lookupA st.handlers t with
  | none =>
      have hlS : lookupA (setSenders f st).handlers t = none := hl
      rw [fireEvent_absent beh _ t fuel hlS, fireEvent_absent beh st t fuel hl]
      rfl
  | some v =>
      cases v with
      | none =>
          have hlS : lookupA (setSenders f st).handlers t = some none := hl
          rw [fireEvent_nullColl beh _ t fuel hlS,
            fireEvent_nullColl beh st t fuel hl]
          rfl
      | some c =>
          have hlS : lookupA (setSenders f st).handlers t = some (some c) := hl
          rw [fireEvent_coll beh _ t fuel c hlS,
            fireEvent_coll beh st t fuel c hl]
          exact fireLoop_setSenders f beh c fuel st _

/-- C7 (evaluation at the failing input): the two-argument
`AddHandler(handler, sender)` passes `&sender` — the address of its own
by-value parameter, a fresh stack slot that dies when the call returns — to
the `EventRegistration` constructor, not the supplied sender value.  Calling
it with sender = nullptr therefore stores a non-null (dangling) stack
address, and `getSender` returns that address, not the supplied value.  The
no-sender overload does store the null pointer. -/
theorem addHandler_sender_not_recorded :
    getSender (AddHandler2 initState 0 7 PtrVal.null).1
        (AddHandler2 initState 0 7 PtrVal.null).2 = some (PtrVal.stack 0) ∧
      PtrVal.stack 0 ≠ PtrVal.null ∧
      getSender (AddHandler1 initState 0 7).1 (AddHandler1 initState 0 7).2 =
        some PtrVal.null := by
  decide

/-- C9: the one-argument `Subscribe<TEvent>(handler)` simply delegates to the
two-argument overload with the always-true lambda, so it produces the very
same bus state and subscription handle, and every later `Publish` observes
identical dispatch behaviour. -/
theorem subscribe_default_predicate (st : BusState) (t : TypeKey) (cb : CbId) :
    Subscribe1 st t cb = Subscribe2 st t cb (fun _ => true) ∧
      ∀ e : Event, Publish (Subscribe1 st t cb).1 e =
        Publish (Subscribe2 st t cb (fun _ => true)).1 e :=
  ⟨rfl, fun _ => rfl⟩

/-! ### `FireEvent` never touches the descriptor path (C10) -/

theorem foldl_removeHandler_collMap (rs : List RegId) :
    ∀ st : BusState, (rs.foldl removeHandler st).collMap = st.collMap := by
  induction rs with
  | nil => intro st; rfl
  | cons r rest ih =>
      intro st
      show (rest.foldl removeHandler (removeHandler st r)).collMap = _
      rw [ih (removeHandler st r), (removeHandler_fields st r).2.1]

theorem fireLoop_collMap (beh : Behavior) (c : TypeKey) :
    ∀ (fuel : Nat) (st : BusState) (cur : Option NodeId) (st' : BusState)
      (l : List (RegId × HandlerId)),
      fireLoop beh c fuel st cur = .ok (st', l) →
      st'.collMap = st.collMap := by
  intro fuel
  induction fuel with
  | zero =>
      intro st cur st' l h
      rw [fireLoop_zero] at h
      exact Except.noConfusion h
  | succ fuel ih =>
      intro st cur st' l h
      cases cur with
      | none =>
          rw [fireLoop_end] at h
          injection h with h1
          injection h1 with h2 h3
          rw [← h2]
      | some n =>
          rw [fireLoop_step] at h
          split at h
          · exact Except.noConfusion h
          · rename_i r heqNode
            split at h
            · exact Except.noConfusion h
            · rename_i record heqReg
              split at h
              · exact Except.noConfusion h
              · rename_i next heqSucc
                split at h
                · exact Except.noConfusion h
                · rename_i st3 l3 heqLoop
                  injection h with h1
                  injection h1 with h2 h3
                  rw [← h2, ih _ _ _ _ heqLoop]
                  exact foldl_removeHandler_collMap (beh record.handler) st

theorem fireEvent_collMap (beh : Behavior) (st : BusState) (t : TypeKey)
    (fuel : Nat) (st' : BusState) (l : List (RegId × HandlerId))
    (h : FireEvent beh st t fuel = .ok (st', l)) :
    st'.collMap = st.collMap := by
  cases hl : lookupA st.handlers t with
  | none =>
      rw [fireEvent_absent beh st t fuel hl] at h
      injection h with h1
      injection h1 with h2 h3
      rw [← h2]
  | some v =>
      cases v with
      | none =>
          rw [fireEvent_nullColl beh st t fuel hl] at h
          injection h with h1
          injection h1 with h2 h3
          rw [← h2]
      | some c =>
          rw [fireEvent_coll beh st t fuel c hl] at h
          exact fireLoop_collMap beh c fuel st _ st' l h

/-- C10: `FireEvent` on an event type never seen before is not
state-preserving — `handlers[typeid(e)]` (`operator[]`) inserts an entry
with a null collection pointer for that key, while every previously existing
entry keeps its lookup value, and the collections, registrations and
descriptor collection map are untouched; moreover no `FireEvent` call ever
touches the descriptor collection map. -/
theorem fireEvent_unknown_type_frame (beh : Behavior) (st : BusState)
    (t : TypeKey) (fuel : Nat) (habs : lookupA st.handlers t = none) :
    (FireEvent beh st t fuel =
        .ok ({ st with handlers := st.handlers ++ [(t, none)] }, []) ∧
      lookupA (st.handlers ++ [(t, none)]) t = some none ∧
      (∀ k, k ≠ t → lookupA (st.handlers ++ [(t, none)]) k =
        lookupA st.handlers k)) ∧
    ∀ (beh2 : Behavior) (st2 : BusState) (t2 : TypeKey) (fuel2 : Nat)
      (st2' : BusState) (l2 : List (RegId × HandlerId)),
      FireEvent beh2 st2 t2 fuel2 = .ok (st2', l2) →
      st2'.collMap = st2.collMap := by
  refine ⟨⟨fireEvent_absent beh st t fuel habs,
    lookupA_append_right_of_none _ habs, ?_⟩,
    fun beh2 st2 t2 fuel2 st2' l2 h =>
      fireEvent_collMap beh2 st2 t2 fuel2 st2' l2 h⟩
  intro k hk
  rw [lookupA_append]
  cases hlk : lookupA st.handlers k with
  | some v => rfl
  | none =>
      show lookupA [(t, none)] k = none
      rw [lookupA_cons, if_neg (fun hh => hk hh.symm)]
      rfl

/-- Witness for C10 on a fresh bus and type key 0. -/
theorem fireEvent_unknown_type_frame_witness :
    (lookupA initState.handlers 0 = none) ∧
    ((FireEvent noopBeh initState 0 1 =
        .ok ({ initState with
                handlers := initState.handlers ++ [(0, none)] }, []) ∧
      lookupA (initState.handlers ++ [(0, none)]) 0 = some none ∧
      (∀ k, k ≠ 0 → lookupA (initState.handlers ++ [(0, none)]) k =
        lookupA initState.handlers k)) ∧
    ∀ (beh2 : Behavior) (st2 : BusState) (t2 : TypeKey) (fuel2 : Nat)
      (st2' : BusState) (l2 : List (RegId × HandlerId)),
      FireEvent beh2 st2 t2 fuel2 = .ok (st2', l2) →
      st2'.collMap = st2.collMap) :=
  ⟨rfl, fireEvent_unknown_type_frame noopBeh initState 0 1 rfl⟩

/-! ### Predicate gating on the descriptor path (C8) -/

theorem entryOut_id (e : Event) (ent : SubEntry) (pr : SubId × (CbId × Nat))
    (h : entryOut e ent = some pr) : pr.1 = ent.id := by
  unfold entryOut at h
  split at h
  · split at h
    · rw [Option.map_eq_some'] at h
      obtain ⟨a, -, ha⟩ := h
      rw [← ha]
    · exact Option.noConfusion h
  · exact Option.noConfusion h

theorem filterMap_entryOut_filter_empty (e : Event) (s : SubId) :
    ∀ l : List SubEntry, (∀ ent ∈ l, ent.id ≠ s) →
      (l.filterMap (entryOut e)).filter (fun pr => pr.1 == s) = [] := by
  intro l
  induction l with
  | nil => intro _; rfl
  | cons ent rest ih =>
      intro hne
      rw [List.filterMap_cons]
      cases ho : entryOut e ent with
      | none => exact ih (fun x hx => hne x (List.mem_cons_of_mem _ hx))
      | some pr =>
          have hfalse : (pr.1 == s) = false := by
            rw [entryOut_id e ent pr ho]
            exact beq_eq_false_iff_ne.mpr (hne ent (List.mem_cons_self _ _))
          rw [List.filter_cons]
          simp only [hfalse, Bool.false_eq_true, if_false]
          exact ih (fun x hx => hne x (List.mem_cons_of_mem _ hx))

theorem filter_dispatch_single (e : Event) (s : SubId)
    (d : SubscriptionDescriptor) :
    ∀ l : List SubEntry, (⟨s, d, true⟩ : SubEntry) ∈ l →
      (l.map (fun ent => ent.id)).Nodup →
      (l.filterMap (entryOut e)).filter (fun pr => pr.1 == s) =
        (entryOut e ⟨s, d, true⟩).toList := by
  intro l
  induction l with
  | nil => intro hmem; simp at hmem
  | cons ent rest ih =>
      intro hmem hnd
      rw [List.map_cons, List.nodup_cons] at hnd
      obtain ⟨hent, hndr⟩ := hnd
      rcases List.mem_cons.mp hmem with hmem | hmem
      · subst hmem
        have hrest : ∀ x ∈ rest, x.id ≠ s := by
          intro x hx hcontra
          exact hent (hcontra ▸ List.mem_map_of_mem (fun ent => ent.id) hx)
        rw [List.filterMap_cons]
        cases ho : entryOut e ⟨s, d, true⟩ with
        | none =>
            rw [filterMap_entryOut_filter_empty e s rest hrest]
            rfl
        | some pr =>
            have htrue : (pr.1 == s) = true := by
              rw [entryOut_id e ⟨s, d, true⟩ pr ho]
              exact beq_self_eq_true s
            rw [List.filter_cons]
            simp only [htrue, if_true]
            rw [filterMap_entryOut_filter_empty e s rest hrest]
            rfl
      · have hid : ent.id ≠ s := by
          intro hcontra
          apply hent
          rw [hcontra]
          exact List.mem_map_of_mem (fun ent => ent.id) hmem
        rw [List.filterMap_cons]
        cases ho : entryOut e ent with
        | none => exact ih hmem hndr
        | some pr =>
            have hfalse : (pr.1 == s) = false := by
              rw [entryOut_id e ent pr ho]
              exact beq_eq_false_iff_ne.mpr hid
            rw [List.filter_cons]
            simp only [hfalse, Bool.false_eq_true, if_false]
            exact ih hmem hndr

theorem entryOut_target (e : Event) (s : SubId) (t : TypeKey) (cb : CbId)
    (pred : Nat → Bool) (hkey : e.key = t) :
    entryOut e ⟨s, mkDescriptor t cb pred, true⟩ =
      if pred e.payload then some (s, (cb, e.payload)) else none := by
  subst hkey
  cases hp : pred e.payload <;> simp [entryOut, mkDescriptor, dynCast, hp]

/-- C8: Predicate gating on the descriptor path — for a live (not cancelled)
subscription built by `Subscribe<T>(callback, predicate)` and an event whose
runtime type is `T`, `Publish` invokes the subscription's callback exactly
once, with the downcast event, when the predicate evaluates to true on the
event at dispatch time, and not at all when it evaluates to false. -/
theorem publish_predicate_gating (st : BusState) (t : TypeKey) (cb : CbId)
    (pred : Nat → Bool) (s : SubId) (e : Event)
    (hmem : (⟨s, mkDescriptor t cb pred, true⟩ : SubEntry) ∈
      st.collMap.entries)
    (hnd : (st.collMap.entries.map (fun ent => ent.id)).Nodup)
    (hkey : e.key = t) :
    (Publish st e).filter (fun pr => pr.1 == s) =
      if pred e.payload then [(s, (cb, e.payload))] else [] := by
  unfold Publish CollMapState.Dispatch
  rw [filter_dispatch_single e s (mkDescriptor t cb pred) st.collMap.entries
    hmem hnd, entryOut_target e s t cb pred hkey]
  cases hp : pred e.payload <;> simp

/-- The `order.amount > 100` predicate of the spec's concrete scenario. -/
def c8Pred : Nat → Bool := fun amount => 100 < amount

/-- The bus after `Subscribe<Order>(callback 5, order.amount > 100)` on a
fresh bus (type key of `Order` = 0; the returned subscription handle is 0). -/
def c8State : BusState := (Subscribe2 initState 0 5 c8Pred).1

/-- Witness for C8: publishing `Order{amount = 150}` invokes callback 5
exactly once with the downcast payload; publishing `Order{amount = 50}`
invokes it not at all. -/
theorem publish_predicate_gating_witness :
    ((⟨0, mkDescriptor 0 5 c8Pred, true⟩ : SubEntry) ∈
      c8State.collMap.entries) ∧
    (Publish c8State ⟨0, 150⟩).filter (fun pr => pr.1 == 0) =
      [(0, (5, 150))] ∧
    (Publish c8State ⟨0, 50⟩).filter (fun pr => pr.1 == 0) = [] := by
  refine ⟨List.mem_cons_self _ _, ?_, ?_⟩
  · have h := publish_predicate_gating c8State 0 5 c8Pred 0 ⟨0, 150⟩
      (List.mem_cons_self _ _) (by decide) rfl
    rw [if_pos (show c8Pred 150 = true from rfl)] at h
    exact h
  · have h := publish_predicate_gating c8State 0 5 c8Pred 0 ⟨0, 50⟩
      (List.mem_cons_self _ _) (by decide) rfl
    rw [if_neg (show ¬c8Pred 50 = true by decide)] at h
    exact h

/-! ### The invariants are reachable-state invariants

The decidable hypotheses used by the claim theorems (`collOwnerInvB`,
`handlersPtrInvB`, `collsDomB`, `handlersDomB`, `freshB`, and node-id
freshness/distinctness) hold on the fresh bus and are preserved by every bus
operation, so they hold in every reachable state. -/

/-- Every node id stored in a collection is below the node allocation
counter. -/
def nodesFreshB (st : BusState) : Bool :=
  st.colls.all (fun kn => kn.2.all (fun p => p.1 < st.nextNode))

/-- The node ids of each collection are pairwise distinct. -/
def nodesNodupB (st : BusState) : Bool :=
  st.colls.all (fun kn => (kn.2.map (fun p => p.1)).Nodup)

/-- All bus well-formedness invariants at once. -/
def WFB (st : BusState) : Bool :=
  collOwnerInvB st && handlersPtrInvB st && collsDomB st && handlersDomB st &&
    freshB st && nodesFreshB st && nodesNodupB st

theorem collOwnerInvB_iff (st : BusState) :
    collOwnerInvB st = true ↔
      ∀ kn ∈ st.colls, ∀ p ∈ kn.2, ∃ record,
        lookupA st.regs p.2 = some record ∧ record.owner = kn.1 := by
  unfold collOwnerInvB
  rw [List.all_eq_true]
  constructor
  · intro h kn hkn p hp
    have h2 := h kn hkn
    rw [List.all_eq_true] at h2
    have h3 := h2 p hp
    cases hl : lookupA st.regs p.2 with
    | none =>
        simp only [hl] at h3
        exact absurd h3 (by simp)
    | some record =>
        simp only [hl, beq_iff_eq] at h3
        exact ⟨record, rfl, h3⟩
  · intro h kn hkn
    rw [List.all_eq_true]
    intro p hp
    obtain ⟨record, hl, ho⟩ := h kn hkn p hp
    simp only [hl, beq_iff_eq]
    exact ho

theorem handlersPtrInvB_iff (st : BusState) :
    handlersPtrInvB st = true ↔
      ∀ kv ∈ st.handlers, ∀ c, kv.2 = some c → c = kv.1 := by
  unfold handlersPtrInvB
  rw [List.all_eq_true]
  constructor
  · intro h kv hkv c hc
    have h2 := h kv hkv
    simp only [hc, beq_iff_eq] at h2
    exact h2
  · intro h kv hkv
    cases hv : kv.2 with
    | none => simp [hv]
    | some c => simp only [hv, beq_iff_eq]; exact h kv hkv c hv

theorem collsDomB_iff (st : BusState) :
    collsDomB st = true ↔
      ∀ kn ∈ st.colls, lookupA st.handlers kn.1 = some (some kn.1) := by
  unfold collsDomB
  rw [List.all_eq_true]
  constructor
  · intro h kn hkn
    have h2 := h kn hkn
    simpa using h2
  · intro h kn hkn
    simp only [beq_iff_eq]
    exact h kn hkn

theorem handlersDomB_iff (st : BusState) :
    handlersDomB st = true ↔
      ∀ kv ∈ st.handlers, ∀ c, kv.2 = some c →
        ∃ ns, lookupA st.colls c = some ns := by
  unfold handlersDomB
  rw [List.all_eq_true]
  constructor
  · intro h kv hkv c hc
    have h2 := h kv hkv
    simp only [hc, Option.isSome_iff_exists] at h2
    exact h2
  · intro h kv hkv
    cases hv : kv.2 with
    | none => simp [hv]
    | some c =>
        simp only [hv, Option.isSome_iff_exists]
        exact h kv hkv c hv

theorem freshB_iff (st : BusState) :
    freshB st = true ↔ ∀ kv ∈ st.regs, kv.1 < st.nextReg := by
  unfold freshB
  rw [List.all_eq_true]
  constructor
  · intro h kv hkv
    have h2 := h kv hkv
    simpa using h2
  · intro h kv hkv
    simpa using h kv hkv

theorem nodesFreshB_iff (st : BusState) :
    nodesFreshB st = true ↔
      ∀ kn ∈ st.colls, ∀ p ∈ kn.2, p.1 < st.nextNode := by
  unfold nodesFreshB
  rw [List.all_eq_true]
  constructor
  · intro h kn hkn p hp
    have h2 := h kn hkn
    rw [List.all_eq_true] at h2
    simpa using h2 p hp
  · intro h kn hkn
    rw [List.all_eq_true]
    intro p hp
    simpa using h kn hkn p hp

theorem nodesNodupB_iff (st : BusState) :
    nodesNodupB st = true ↔
      ∀ kn ∈ st.colls, (kn.2.map (fun p => p.1)).Nodup := by
  unfold nodesNodupB
  rw [List.all_eq_true]
  constructor
  · intro h kn hkn
    have h2 := h kn hkn
    simpa using h2
  · intro h kn hkn
    simpa using h kn hkn

theorem WFB_iff (st : BusState) :
    WFB st = true ↔
      collOwnerInvB st = true ∧ handlersPtrInvB st = true ∧
      collsDomB st = true ∧ handlersDomB st = true ∧ freshB st = true ∧
      nodesFreshB st = true ∧ nodesNodupB st = true := by
  unfold WFB
  simp only [Bool.and_eq_true]
  tauto

theorem WFB_initState : WFB initState = true := by decide

theorem collOwnerInvB_removeHandler (st : BusState) (r : RegId)
    (hInv : collOwnerInvB st = true) :
    collOwnerInvB (removeHandler st r) = true := by
  rcases removeHandler_shape st r with h | ⟨record, hr, hreg, ⟨hc, h⟩ | ⟨nodes, hc, h⟩⟩
  · rw [h]; exact hInv
  · rw [h]
    rw [collOwnerInvB_iff] at hInv ⊢
    intro kn hkn p hp
    obtain ⟨record0, hl0, ho0⟩ := hInv kn hkn p hp
    by_cases hpr : p.2 = r
    · refine ⟨{ record with registered := false }, ?_, ?_⟩
      · show lookupA (updateA st.regs r { record with registered := false })
          p.2 = _
        rw [hpr]
        exact lookupA_updateA_self _ _ _
      · rw [hpr] at hl0
        have heq : record = record0 := by
          have := hr.symm.trans hl0
          injection this
        show record.owner = kn.1
        rw [heq]
        exact ho0
    · refine ⟨record0, ?_, ho0⟩
      show lookupA (updateA st.regs r _) p.2 = some record0
      rw [lookupA_updateA_ne _ _ _ _ hpr]
      exact hl0
  · rw [h]
    rw [collOwnerInvB_iff] at hInv ⊢
    intro kn hkn p hp
    have hmem : kn = (record.owner, nodes.filter (fun p => p.2 != r)) ∨
        kn ∈ st.colls := mem_updateA hkn
    rcases hmem with heq | hold
    · subst heq
      have hp2 : p ∈ nodes := List.mem_of_mem_filter hp
      obtain ⟨record0, hl0, ho0⟩ :=
        hInv (record.owner, nodes) (lookupA_mem hc) p hp2
      by_cases hpr : p.2 = r
      · refine ⟨{ record with registered := false }, ?_, rfl⟩
        rw [hpr]
        exact lookupA_updateA_self _ _ _
      · refine ⟨record0, ?_, ho0⟩
        rw [lookupA_updateA_ne _ _ _ _ hpr]
        exact hl0
    · obtain ⟨record0, hl0, ho0⟩ := hInv kn hold p hp
      by_cases hpr : p.2 = r
      · refine ⟨{ record with registered := false }, ?_, ?_⟩
        · rw [hpr]
          exact lookupA_updateA_self _ _ _
        · rw [hpr] at hl0
          have heq2 : record = record0 := by
            have := hr.symm.trans hl0
            injection this
          show record.owner = kn.1
          rw [heq2]
          exact ho0
      · refine ⟨record0, ?_, ho0⟩
        rw [lookupA_updateA_ne _ _ _ _ hpr]
        exact hl0

theorem handlersPtrInvB_removeHandler (st : BusState) (r : RegId)
    (hPtr : handlersPtrInvB st = true) :
    handlersPtrInvB (removeHandler st r) = true := by
  unfold handlersPtrInvB at hPtr ⊢
  rw [(removeHandler_fields st r).1]
  exact hPtr

theorem collsDomB_removeHandler (st : BusState) (r : RegId)
    (hdom : collsDomB st = true) :
    collsDomB (removeHandler st r) = true := by
  rcases removeHandler_shape st r with h | ⟨record, hr, hreg, ⟨hc, h⟩ | ⟨nodes, hc, h⟩⟩
  · rw [h]; exact hdom
  · rw [h]
    rw [collsDomB_iff] at hdom ⊢
    intro kn hkn
    exact hdom kn hkn
  · rw [h]
    rw [collsDomB_iff] at hdom ⊢
    intro kn hkn
    rcases mem_updateA hkn with heq | hold
    · subst heq
      exact hdom (record.owner, nodes) (lookupA_mem hc)
    · exact hdom kn hold

theorem handlersDomB_removeHandler (st : BusState) (r : RegId)
    (hdom : handlersDomB st = true) :
    handlersDomB (removeHandler st r) = true := by
  rcases removeHandler_shape st r with h | ⟨record, hr, hreg, ⟨hc, h⟩ | ⟨nodes, hc, h⟩⟩
  · rw [h]; exact hdom
  · rw [h]
    rw [handlersDomB_iff] at hdom ⊢
    intro kv hkv c hcv
    exact hdom kv hkv c hcv
  · rw [h]
    rw [handlersDomB_iff] at hdom ⊢
    intro kv hkv c hcv
    obtain ⟨ns, hns⟩ := hdom kv hkv c hcv
    by_cases hco : record.owner = c
    · subst hco
      exact ⟨_, lookupA_updateA_self _ _ _⟩
    · refine ⟨ns, ?_⟩
      show lookupA (updateA st.colls record.owner _) c = some ns
      rw [lookupA_updateA_ne _ _ _ _ (fun hh => hco hh.symm)]
      exact hns

theorem freshB_removeHandler (st : BusState) (r : RegId)
    (hfresh : freshB st = true) :
    freshB (removeHandler st r) = true := by
  rcases removeHandler_shape st r with h | ⟨record, hr, hreg, ⟨hc, h⟩ | ⟨nodes, hc, h⟩⟩
  · rw [h]; exact hfresh
  all_goals (
    rw [h]
    rw [freshB_iff] at hfresh ⊢
    intro kv hkv
    rcases mem_updateA hkv with heq | hold
    · subst heq
      exact hfresh (r, record) (lookupA_mem hr)
    · exact hfresh kv hold)

theorem nodesFreshB_removeHandler (st : BusState) (r : RegId)
    (hfresh : nodesFreshB st = true) :
    nodesFreshB (removeHandler st r) = true := by
  rcases removeHandler_shape st r with h | ⟨record, hr, hreg, ⟨hc, h⟩ | ⟨nodes, hc, h⟩⟩
  · rw [h]; exact hfresh
  · rw [h]
    rw [nodesFreshB_iff] at hfresh ⊢
    intro kn hkn p hp
    exact hfresh kn hkn p hp
  · rw [h]
    rw [nodesFreshB_iff] at hfresh ⊢
    intro kn hkn p hp
    rcases mem_updateA hkn with heq | hold
    · subst heq
      exact hfresh (record.owner, nodes) (lookupA_mem hc) p
        (List.mem_of_mem_filter hp)
    · exact hfresh kn hold p hp

theorem nodesNodupB_removeHandler (st : BusState) (r : RegId)
    (hnd : nodesNodupB st = true) :
    nodesNodupB (removeHandler st r) = true := by
  rcases removeHandler_shape st r with h | ⟨record, hr, hreg, ⟨hc, h⟩ | ⟨nodes, hc, h⟩⟩
  · rw [h]; exact hnd
  · rw [h]
    rw [nodesNodupB_iff] at hnd ⊢
    intro kn hkn
    exact hnd kn hkn
  · rw [h]
    rw [nodesNodupB_iff] at hnd ⊢
    intro kn hkn
    rcases mem_updateA hkn with heq | hold
    · subst heq
      have hsub : ((nodes.filter (fun p => p.2 != r)).map (fun p => p.1)).Sublist
          (nodes.map (fun p => p.1)) :=
        List.Sublist.map _ (List.filter_sublist nodes)
      exact List.Nodup.sublist hsub
        (hnd (record.owner, nodes) (lookupA_mem hc))
    · exact hnd kn hold

theorem WFB_removeHandler (st : BusState) (r : RegId) (hwf : WFB st = true) :
    WFB (removeHandler st r) = true := by
  rw [WFB_iff] at hwf ⊢
  obtain ⟨h1, h2, h3, h4, h5, h6, h7⟩ := hwf
  exact ⟨collOwnerInvB_removeHandler st r h1,
    handlersPtrInvB_removeHandler st r h2,
    collsDomB_removeHandler st r h3,
    handlersDomB_removeHandler st r h4,
    freshB_removeHandler st r h5,
    nodesFreshB_removeHandler st r h6,
    nodesNodupB_removeHandler st r h7⟩

theorem lookupA_append_single_ne {β : Type} (l : List (Nat × β)) (t k : Nat)
    (v : β) (hk : k ≠ t) : lookupA (l ++ [(t, v)]) k = lookupA l k := by
  rw [lookupA_append]
  cases hl : lookupA l k with
  | some w => rfl
  | none =>
      show lookupA [(t, v)] k = none
      rw [lookupA_cons, if_neg (fun hh => hk hh.symm)]
      rfl

theorem WFB_addHandlerCore (st : BusState) (t : TypeKey) (h : HandlerId)
    (sf : PtrVal) (hwf : WFB st = true) :
    WFB (addHandlerCore st t h sf).1 = true := by
  rw [WFB_iff] at hwf
  obtain ⟨hOwn, hPtr, hCDom, hHDom, hFresh, hNFresh, hNNd⟩ := hwf
  have hOwn' := (collOwnerInvB_iff st).mp hOwn
  have hPtr' := (handlersPtrInvB_iff st).mp hPtr
  have hCDom' := (collsDomB_iff st).mp hCDom
  have hHDom' := (handlersDomB_iff st).mp hHDom
  have hFresh' := (freshB_iff st).mp hFresh
  have hNFresh' := (nodesFreshB_iff st).mp hNFresh
  have hNNd' := (nodesNodupB_iff st).mp hNNd
  have hRegNone : lookupA st.regs st.nextReg = none := freshB_lookup_none hFresh
  cases hl : lookupA st.handlers t with
  | none =>
      have hcoll : lookupA st.colls t = none :=
        collsDomB_none hCDom (by rw [hl]; simp)
      rw [addHandlerCore_shape_absent st t h sf hl hcoll]
      rw [WFB_iff]
      refine ⟨?_, ?_, ?_, ?_, ?_, ?_, ?_⟩
      · rw [collOwnerInvB_iff]
        intro kn hkn p hp
        rcases mem_updateA hkn with heq | hold
        · subst heq
          rw [List.mem_singleton] at hp
          subst hp
          exact ⟨⟨h, t, sf, true⟩,
            lookupA_append_right_of_none _ hRegNone, rfl⟩
        · rcases List.mem_append.mp hold with hold2 | hnew
          · obtain ⟨record0, hl0, ho0⟩ := hOwn' kn hold2 p hp
            exact ⟨record0, lookupA_append_left hl0, ho0⟩
          · rw [List.mem_singleton] at hnew
            subst hnew
            simp at hp
      · rw [handlersPtrInvB_iff]
        intro kv hkv c hc
        rcases mem_updateA hkv with heq | hold
        · subst heq
          injection hc with hc2
          exact hc2.symm
        · rcases List.mem_append.mp hold with hold2 | hnew
          · exact hPtr' kv hold2 c hc
          · rw [List.mem_singleton] at hnew
            subst hnew
            exact Option.noConfusion hc
      · rw [collsDomB_iff]
        intro kn hkn
        rcases mem_updateA hkn with heq | hold
        · subst heq
          exact lookupA_updateA_self _ _ _
        · rcases List.mem_append.mp hold with hold2 | hnew
          · have hne : kn.1 ≠ t := keys_ne_of_lookupA_eq_none hcoll kn hold2
            show lookupA (updateA (st.handlers ++ [(t, none)]) t (some t))
              kn.1 = some (some kn.1)
            rw [lookupA_updateA_ne _ _ _ _ hne,
              lookupA_append_single_ne _ _ _ _ hne]
            exact hCDom' kn hold2
          · rw [List.mem_singleton] at hnew
            subst hnew
            exact lookupA_updateA_self _ _ _
      · rw [handlersDomB_iff]
        intro kv hkv c hc
        rcases mem_updateA hkv with heq | hold
        · subst heq
          injection hc with hc2
          subst hc2
          exact ⟨_, lookupA_updateA_self _ _ _⟩
        · rcases List.mem_append.mp hold with hold2 | hnew
          · obtain ⟨ns, hns⟩ := hHDom' kv hold2 c hc
            by_cases hct : t = c
            · subst hct
              exact ⟨_, lookupA_updateA_self _ _ _⟩
            · refine ⟨ns, ?_⟩
              show lookupA (updateA (st.colls ++ [(t, [])]) t
                [(st.nextNode, st.nextReg)]) c = some ns
              rw [lookupA_updateA_ne _ _ _ _ (fun hh => hct hh.symm),
                lookupA_append_single_ne _ _ _ _ (fun hh => hct hh.symm)]
              exact hns
          · rw [List.mem_singleton] at hnew
            subst hnew
            exact Option.noConfusion hc
      · rw [freshB_iff]
        intro kv hkv
        show kv.1 < st.nextReg + 1
        rcases List.mem_append.mp hkv with hold2 | hnew
        · exact Nat.lt_succ_of_lt (hFresh' kv hold2)
        · rw [List.mem_singleton] at hnew
          subst hnew
          exact Nat.lt_succ_self _
      · rw [nodesFreshB_iff]
        intro kn hkn p hp
        show p.1 < st.nextNode + 1
        rcases mem_updateA hkn with heq | hold
        · subst heq
          rw [List.mem_singleton] at hp
          subst hp
          exact Nat.lt_succ_self _
        · rcases List.mem_append.mp hold with hold2 | hnew
          · exact Nat.lt_succ_of_lt (hNFresh' kn hold2 p hp)
          · rw [List.mem_singleton] at hnew
            subst hnew
            simp at hp
      · rw [nodesNodupB_iff]
        intro kn hkn
        rcases mem_updateA hkn with heq | hold
        · subst heq
          simp
        · rcases List.mem_append.mp hold with hold2 | hnew
          · exact hNNd' kn hold2
          · rw [List.mem_singleton] at hnew
            subst hnew
            simp
  | some v =>
      cases v with
      | none =>
          have hcoll : lookupA st.colls t = none :=
            collsDomB_none hCDom (by rw [hl]; simp)
          rw [addHandlerCore_shape_create st t h sf hl hcoll]
          rw [WFB_iff]
          refine ⟨?_, ?_, ?_, ?_, ?_, ?_, ?_⟩
          · rw [collOwnerInvB_iff]
            intro kn hkn p hp
            rcases mem_updateA hkn with heq | hold
            · subst heq
              rw [List.mem_singleton] at hp
              subst hp
              exact ⟨⟨h, t, sf, true⟩,
                lookupA_append_right_of_none _ hRegNone, rfl⟩
            · rcases List.mem_append.mp hold with hold2 | hnew
              · obtain ⟨record0, hl0, ho0⟩ := hOwn' kn hold2 p hp
                exact ⟨record0, lookupA_append_left hl0, ho0⟩
              · rw [List.mem_singleton] at hnew
                subst hnew
                simp at hp
          · rw [handlersPtrInvB_iff]
            intro kv hkv c hc
            rcases mem_updateA hkv with heq | hold
            · subst heq
              injection hc with hc2
              exact hc2.symm
            · exact hPtr' kv hold c hc
          · rw [collsDomB_iff]
            intro kn hkn
            rcases mem_updateA hkn with heq | hold
            · subst heq
              exact lookupA_updateA_self _ _ _
            · rcases List.mem_append.mp hold with hold2 | hnew
              · have hne : kn.1 ≠ t := keys_ne_of_lookupA_eq_none hcoll kn hold2
                show lookupA (updateA st.handlers t (some t)) kn.1 =
                  some (some kn.1)
                rw [lookupA_updateA_ne _ _ _ _ hne]
                exact hCDom' kn hold2
              · rw [List.mem_singleton] at hnew
                subst hnew
                exact lookupA_updateA_self _ _ _
          · rw [handlersDomB_iff]
            intro kv hkv c hc
            rcases mem_updateA hkv with heq | hold
            · subst heq
              injection hc with hc2
              subst hc2
              exact ⟨_, lookupA_updateA_self _ _ _⟩
            · obtain ⟨ns, hns⟩ := hHDom' kv hold c hc
              by_cases hct : t = c
              · subst hct
                exact ⟨_, lookupA_updateA_self _ _ _⟩
              · refine ⟨ns, ?_⟩
                show lookupA (updateA (st.colls ++ [(t, [])]) t
                  [(st.nextNode, st.nextReg)]) c = some ns
                rw [lookupA_updateA_ne _ _ _ _ (fun hh => hct hh.symm),
                  lookupA_append_single_ne _ _ _ _ (fun hh => hct hh.symm)]
                exact hns
          · rw [freshB_iff]
            intro kv hkv
            show kv.1 < st.nextReg + 1
            rcases List.mem_append.mp hkv with hold2 | hnew
            · exact Nat.lt_succ_of_lt (hFresh' kv hold2)
            · rw [List.mem_singleton] at hnew
              subst hnew
              exact Nat.lt_succ_self _
          · rw [nodesFreshB_iff]
            intro kn hkn p hp
            show p.1 < st.nextNode + 1
            rcases mem_updateA hkn with heq | hold
            · subst heq
              rw [List.mem_singleton] at hp
              subst hp
              exact Nat.lt_succ_self _
            · rcases List.mem_append.mp hold with hold2 | hnew
              · exact Nat.lt_succ_of_lt (hNFresh' kn hold2 p hp)
              · rw [List.mem_singleton] at hnew
                subst hnew
                simp at hp
          · rw [nodesNodupB_iff]
            intro kn hkn
            rcases mem_updateA hkn with heq | hold
            · subst heq
              simp
            · rcases List.mem_append.mp hold with hold2 | hnew
              · exact hNNd' kn hold2
              · rw [List.mem_singleton] at hnew
                subst hnew
                simp
      | some c0 =>
          obtain ⟨nodes, hnodes⟩ := handlersDomB_isSome hHDom hl
          rw [addHandlerCore_shape_existing st t h sf c0 nodes hl hnodes]
          rw [WFB_iff]
          refine ⟨?_, ?_, ?_, ?_, ?_, ?_, ?_⟩
          · rw [collOwnerInvB_iff]
            intro kn hkn p hp
            rcases mem_updateA hkn with heq | hold
            · subst heq
              rcases List.mem_append.mp hp with hpold | hpnew
              · obtain ⟨record0, hl0, ho0⟩ :=
                  hOwn' (c0, nodes) (lookupA_mem hnodes) p hpold
                exact ⟨record0, lookupA_append_left hl0, ho0⟩
              · rw [List.mem_singleton] at hpnew
                subst hpnew
                exact ⟨⟨h, c0, sf, true⟩,
                  lookupA_append_right_of_none _ hRegNone, rfl⟩
            · obtain ⟨record0, hl0, ho0⟩ := hOwn' kn hold p hp
              exact ⟨record0, lookupA_append_left hl0, ho0⟩
          · rw [handlersPtrInvB_iff]
            intro kv hkv c hc
            exact hPtr' kv hkv c hc
          · rw [collsDomB_iff]
            intro kn hkn
            rcases mem_updateA hkn with heq | hold
            · subst heq
              exact hCDom' (c0, nodes) (lookupA_mem hnodes)
            · exact hCDom' kn hold
          · rw [handlersDomB_iff]
            intro kv hkv c hc
            obtain ⟨ns, hns⟩ := hHDom' kv hkv c hc
            by_cases hcc : c0 = c
            · subst hcc
              exact ⟨_, lookupA_updateA_self _ _ _⟩
            · refine ⟨ns, ?_⟩
              show lookupA (updateA st.colls c0
                (nodes ++ [(st.nextNode, st.nextReg)])) c = some ns
              rw [lookupA_updateA_ne _ _ _ _ (fun hh => hcc hh.symm)]
              exact hns
          · rw [freshB_iff]
            intro kv hkv
            show kv.1 < st.nextReg + 1
            rcases List.mem_append.mp hkv with hold2 | hnew
            · exact Nat.lt_succ_of_lt (hFresh' kv hold2)
            · rw [List.mem_singleton] at hnew
              subst hnew
              exact Nat.lt_succ_self _
          · rw [nodesFreshB_iff]
            intro kn hkn p hp
            show p.1 < st.nextNode + 1
            rcases mem_updateA hkn with heq | hold
            · subst heq
              rcases List.mem_append.mp hp with hpold | hpnew
              · exact Nat.lt_succ_of_lt
                  (hNFresh' (c0, nodes) (lookupA_mem hnodes) p hpold)
              · rw [List.mem_singleton] at hpnew
                subst hpnew
                exact Nat.lt_succ_self _
            · exact Nat.lt_succ_of_lt (hNFresh' kn hold p hp)
          · rw [nodesNodupB_iff]
            intro kn hkn
            rcases mem_updateA hkn with heq | hold
            · subst heq
              show ((nodes ++ [(st.nextNode, st.nextReg)]).map
                (fun p => p.1)).Nodup
              rw [List.map_append, List.nodup_append]
              refine ⟨hNNd' (c0, nodes) (lookupA_mem hnodes), by simp, ?_⟩
              intro a ha hb
              simp only [List.map_cons, List.map_nil, List.mem_singleton] at hb
              obtain ⟨p, hpmem, hpa⟩ := List.mem_map.mp ha
              have := hNFresh' (c0, nodes) (lookupA_mem hnodes) p hpmem
              rw [hpa] at this
              rw [hb] at this
              exact absurd this (by simp)
            · exact hNNd' kn hold

theorem WFB_addHandler1 (st : BusState) (t : TypeKey) (h : HandlerId)
    (hwf : WFB st = true) : WFB (AddHandler1 st t h).1 = true :=
  WFB_addHandlerCore st t h PtrVal.null hwf

theorem WFB_addHandler2 (st : BusState) (t : TypeKey) (h : HandlerId)
    (sv : PtrVal) (hwf : WFB st = true) :
    WFB (AddHandler2 st t h sv).1 = true :=
  WFB_addHandlerCore { st with nextStack := st.nextStack + 1 } t h
    (PtrVal.stack st.nextStack) hwf

theorem WFB_foldl_removeHandler (rs : List RegId) :
    ∀ st : BusState, WFB st = true →
      WFB (rs.foldl removeHandler st) = true := by
  induction rs with
  | nil => intro st hwf; exact hwf
  | cons r rest ih =>
      intro st hwf
      exact ih (removeHandler st r) (WFB_removeHandler st r hwf)

theorem WFB_runHandler (beh : Behavior) (h : HandlerId) (st : BusState)
    (hwf : WFB st = true) : WFB (runHandler beh h st) = true :=
  WFB_foldl_removeHandler (beh h) st hwf

theorem WFB_appendNull (st : BusState) (t : TypeKey)
    (habs : lookupA st.handlers t = none) (hwf : WFB st = true) :
    WFB { st with handlers := st.handlers ++ [(t, none)] } = true := by
  rw [WFB_iff] at hwf ⊢
  obtain ⟨hOwn, hPtr, hCDom, hHDom, hFresh, hNFresh, hNNd⟩ := hwf
  refine ⟨hOwn, ?_, ?_, ?_, hFresh, hNFresh, hNNd⟩
  · rw [handlersPtrInvB_iff]
    intro kv hkv c hc
    rcases List.mem_append.mp hkv with hold | hnew
    · exact (handlersPtrInvB_iff st).mp hPtr kv hold c hc
    · rw [List.mem_singleton] at hnew
      subst hnew
      exact Option.noConfusion hc
  · rw [collsDomB_iff]
    intro kn hkn
    exact lookupA_append_left ((collsDomB_iff st).mp hCDom kn hkn)
  · rw [handlersDomB_iff]
    intro kv hkv c hc
    rcases List.mem_append.mp hkv with hold | hnew
    · exact (handlersDomB_iff st).mp hHDom kv hold c hc
    · rw [List.mem_singleton] at hnew
      subst hnew
      exact Option.noConfusion hc

theorem WFB_fireLoop (beh : Behavior) (c : TypeKey) :
    ∀ (fuel : Nat) (st : BusState) (cur : Option NodeId) (st' : BusState)
      (l : List (RegId × HandlerId)),
      fireLoop beh c fuel st cur = .ok (st', l) → WFB st = true →
      WFB st' = true := by
  intro fuel
  induction fuel with
  | zero =>
      intro st cur st' l h hwf
      rw [fireLoop_zero] at h
      exact Except.noConfusion h
  | succ fuel ih =>
      intro st cur st' l h hwf
      cases cur with
      | none =>
          rw [fireLoop_end] at h
          injection h with h1
          injection h1 with h2 h3
          rw [← h2]
          exact hwf
      | some n =>
          rw [fireLoop_step] at h
          split at h
          · exact Except.noConfusion h
          · rename_i r heqNode
            split at h
            · exact Except.noConfusion h
            · rename_i record heqReg
              split at h
              · exact Except.noConfusion h
              · rename_i next heqSucc
                split at h
                · exact Except.noConfusion h
                · rename_i st3 l3 heqLoop
                  injection h with h1
                  injection h1 with h2 h3
                  rw [← h2]
                  exact ih _ _ _ _ heqLoop
                    (WFB_runHandler beh record.handler st hwf)

/-- Every bus operation preserves the well-formedness invariants, so they
hold in every reachable state: `FireEvent` in particular. -/
theorem WFB_fireEvent (beh : Behavior) (st : BusState) (t : TypeKey)
    (fuel : Nat) (st' : BusState) (l : List (RegId × HandlerId))
    (h : FireEvent beh st t fuel = .ok (st', l)) (hwf : WFB st = true) :
    WFB st' = true := by
  cases hl : lookupA st.handlers t with
  | none =>
      rw [fireEvent_absent beh st t fuel hl] at h
      injection h with h1
      injection h1 with h2 h3
      rw [← h2]
      exact WFB_appendNull st t hl hwf
  | some v =>
      cases v with
      | none =>
          rw [fireEvent_nullColl beh st t fuel hl] at h
          injection h with h1
          injection h1 with h2 h3
          rw [← h2]
          exact hwf
      | some c =>
          rw [fireEvent_coll beh st t fuel c hl] at h
          exact WFB_fireLoop beh c fuel st _ st' l h hwf

/-- `Subscribe`, `Add` and subscription cancellation touch only the
descriptor collection map, so they leave the typed-registry invariants
untouched. -/
theorem WFB_descriptor_ops (st : BusState) (t : TypeKey) (cb : CbId)
    (pred : Nat → Bool) (d : SubscriptionDescriptor) :
    WFB (Subscribe2 st t cb pred).1 = WFB st ∧
    WFB (Subscribe1 st t cb).1 = WFB st ∧
    WFB (busAdd st d).1 = WFB st :=
  ⟨rfl, rfl, rfl⟩

/-- In a well-formed state, every collection's hypotheses used by the claim
theorems hold: its node ids are pairwise distinct and every stored
registration is allocated. -/
theorem WFB_collection_hyps (st : BusState) (c : TypeKey)
    (nodes : List (NodeId × RegId)) (hwf : WFB st = true)
    (hc : lookupA st.colls c = some nodes) :
    (nodes.map (fun p => p.1)).Nodup ∧
      ∀ p ∈ nodes, (lookupA st.regs p.2).isSome = true := by
  rw [WFB_iff] at hwf
  obtain ⟨hOwn, -, -, -, -, -, hNNd⟩ := hwf
  constructor
  · exact (nodesNodupB_iff st).mp hNNd (c, nodes) (lookupA_mem hc)
  · intro p hp
    obtain ⟨record0, hl0, -⟩ :=
      (collOwnerInvB_iff st).mp hOwn (c, nodes) (lookupA_mem hc) p hp
    rw [hl0]
    rfl

/-- Handler 1 revokes handler 2's registration (handle 1) when invoked. -/
def c3BehForward : Behavior := fun h => if h = 1 then [1] else []

/-- Contrast to the self-removal case: revoking a not-yet-visited
registration during dispatch is well-defined — the erased node is not the
one the iterator points at, so the pass completes; the removed entry is
simply not visited (only handler 1 fires). -/
theorem fireEvent_forward_removal_eval :
    (FireEvent c3BehForward c3State 0 5).map (fun res => res.2) =
      .ok [(0, 1)] := rfl
